import Mathlib

/-!
Verification of the botport request/response protocol (src/botport.ts).

The development shallowly embeds the parts of the implementation the
properties talk about: the wire codec (JSON value serialization and parsing,
percent-encoding, URL path/query splitting), the route table and its
matching scan, the server's command dispatch, the Response final-write state
machine, and the client's pending-call correlation machine.

Strings are modelled as lists of characters. JavaScript builtins used by the
code (JSON.stringify, JSON.parse, encodeURIComponent, decodeURIComponent,
parseInt, String.prototype.split, the WHATWG URL constructor) are modelled
by executable Lean functions following their specified behavior; numbers in
JSON values are modelled with exact decimal semantics (a mantissa and a
decimal exponent) rather than IEEE doubles.
-/

namespace Botport

/-- Left-brace character, kept out of literals. -/
def lbrace : Char := Char.ofNat 123

/-- Right-brace character, kept out of literals. -/
def rbrace : Char := Char.ofNat 125

/-- Single-quote character, kept out of literals. -/
def squote : Char := Char.ofNat 39

/-- Double-quote character. -/
def dquote : Char := Char.ofNat 34

/-- Backslash character. -/
def bslash : Char := Char.ofNat 92

/-- ASCII whitespace characters matched by the JavaScript regex class \s
(the protocol only ever meets the ASCII ones). -/
def isWs (c : Char) : Bool :=
  c == ' ' || c == '\t' || c == '\n' || c == '\r' ||
  c == Char.ofNat 11 || c == Char.ofNat 12

/-- Decimal digit test. -/
def isDigitC (c : Char) : Bool := 48 ≤ c.toNat && c.toNat ≤ 57

/-- Numeric value of a decimal digit character. -/
def digitVal (c : Char) : Nat := c.toNat - 48

/-- Digit character for a value below ten. -/
def digitChar (n : Nat) : Char := Char.ofNat (48 + n)

/-- Numeric value of a list of decimal digits, most significant first. -/
def natOfDigits (l : List Char) : Nat :=
  l.foldl (fun acc c => acc * 10 + digitVal c) 0

/-- Decimal digits of a natural number, the usual base-ten printing. -/
def natDigits (n : Nat) : List Char :=
  if h : n < 10 then [digitChar n]
  else natDigits (n / 10) ++ [digitChar (n % 10)]
decreasing_by
  omega

/-- Decimal printing of an integer, the model of JavaScript number-to-string
conversion on integral values. -/
def intDec (m : Int) : List Char :=
  if m < 0 then '-' :: natDigits (-m).toNat else natDigits m.toNat

/-- Lowercase hex digit for a value below 16, as emitted by JSON.stringify
unicode escapes. -/
def hexDigitLower (n : Nat) : Char :=
  if n < 10 then Char.ofNat (48 + n) else Char.ofNat (87 + n)

/-- Uppercase hex digit for a value below 16, as emitted by
encodeURIComponent. -/
def hexDigitUpper (n : Nat) : Char :=
  if n < 10 then Char.ofNat (48 + n) else Char.ofNat (55 + n)

/-- Value of one hex digit character, upper or lower case. -/
def hexVal (c : Char) : Option Nat :=
  if 48 ≤ c.toNat && c.toNat ≤ 57 then some (c.toNat - 48)
  else if 97 ≤ c.toNat && c.toNat ≤ 102 then some (c.toNat - 87)
  else if 65 ≤ c.toNat && c.toNat ≤ 70 then some (c.toNat - 55)
  else none

/-- Length of dropWhile is bounded by the length of the input. -/
theorem dropWhile_len_le (p : α → Bool) (l : List α) :
    (l.dropWhile p).length ≤ l.length := by
  induction l with
  | nil => simp [List.dropWhile]
  | cons a l ih =>
    rw [List.dropWhile]
    cases p a <;> simp <;> omega

/-- Split on every separator character, the single-character JavaScript
split: an accumulator walk emitting a piece at each separator, so adjacent
separators give empty pieces. -/
def splitCharAux (p : Char → Bool) : List Char → List Char → List (List Char)
  | [], acc => [acc.reverse]
  | c :: cs, acc =>
    if p c then acc.reverse :: splitCharAux p cs []
    else splitCharAux p cs (c :: acc)

/-- Split on every character the predicate accepts. -/
def splitChar (p : Char → Bool) (s : List Char) : List (List Char) := splitCharAux p s []

/-- Empty pieces that sit between two separators are dropped; the piece
after the final separator stays even when empty. -/
def dropMidEmpty : List (List Char) → List (List Char)
  | [] => []
  | x :: xs =>
    match xs with
    | [] => [x]
    | _ :: _ => if x.isEmpty then dropMidEmpty xs else x :: dropMidEmpty xs

/-- Splitting a string on runs of whitespace, the behavior of the
JavaScript split on the one-or-more-whitespace regex: split at every
whitespace character, then drop the empty pieces adjacent separators
create; the first and last pieces stay (the regex split also keeps them
when the string starts or ends with separators). -/
def splitWs (s : List Char) : List (List Char) :=
  match splitChar isWs s with
  | [] => []
  | first :: rest => first :: dropMidEmpty rest

/-- Joining string pieces with single spaces, the behavior of array join
with a one-space separator. -/
def joinSp (l : List (List Char)) : List Char := List.intercalate [' '] l

/-- JavaScript parseInt with radix 10: skip leading whitespace, optional
sign, then the longest leading run of decimal digits; NaN (here: none) when
no digit is found. -/
def parseIntJS (s : List Char) : Option Int :=
  let t := s.dropWhile isWs
  match t with
  | '-' :: r =>
    let ds := r.takeWhile isDigitC
    if ds.isEmpty then none else some (-(natOfDigits ds : Int))
  | '+' :: r =>
    let ds := r.takeWhile isDigitC
    if ds.isEmpty then none else some ((natOfDigits ds : Int))
  | r =>
    let ds := r.takeWhile isDigitC
    if ds.isEmpty then none else some ((natOfDigits ds : Int))

/-- JSON values, as produced by JSON.parse and consumed by JSON.stringify.
Numbers carry exact decimal semantics: num m e denotes m divided by 10 to
the e. The implementation only ever compares, stores, and re-serializes
these values, so decimal semantics is a faithful stand-in for doubles on
every value the properties mention. -/
inductive Json where
  | null : Json
  | bool (b : Bool) : Json
  | num (m : Int) (e : Nat) : Json
  | str (s : List Char) : Json
  | arr (xs : List Json) : Json
  | obj (kvs : List (List Char × Json)) : Json
deriving Repr

/-- Escape of one character inside a JSON string literal, as performed by
JSON.stringify. -/
def escChar (c : Char) : List Char :=
  if c == dquote then [bslash, dquote]
  else if c == bslash then [bslash, bslash]
  else if c.toNat == 8 then [bslash, 'b']
  else if c.toNat == 9 then [bslash, 't']
  else if c.toNat == 10 then [bslash, 'n']
  else if c.toNat == 12 then [bslash, 'f']
  else if c.toNat == 13 then [bslash, 'r']
  else if c.toNat < 32 then
    [bslash, 'u', '0', '0', hexDigitLower (c.toNat / 16), hexDigitLower (c.toNat % 16)]
  else [c]

/-- Serialization of a JSON string with surrounding quotes. -/
def serStr (s : List Char) : List Char :=
  dquote :: (s.map escChar).flatten ++ [dquote]

/-- Serialization of a decimal number. Integers (exponent zero) print
exactly as JSON.stringify prints them; fractional values print in an
exponent form denoting the same decimal value (exact double formatting is
not representable, and no property depends on the fractional format). -/
def serNum (m : Int) (e : Nat) : List Char :=
  if e = 0 then intDec m
  else intDec m ++ 'e' :: '-' :: natDigits e

/-- Serialization of a JSON value, the model of JSON.stringify. Object
fields print in list order, matching JavaScript insertion-order
enumeration; absent optional fields are simply not in the list, matching
the omission of undefined-valued properties. -/
def ser : Json → List Char
  | .null => "null".data
  | .bool true => "true".data
  | .bool false => "false".data
  | .num m e => serNum m e
  | .str s => serStr s
  | .arr xs =>
    '[' :: (List.intercalate [','] (xs.attach.map (fun x => ser x.1))) ++ [']']
  | .obj kvs =>
    lbrace :: (List.intercalate [',']
      (kvs.attach.map (fun kv => serStr kv.1.1 ++ ':' :: ser kv.1.2))) ++ [rbrace]
decreasing_by
  · have := List.sizeOf_lt_of_mem x.2
    simp only [Json.arr.sizeOf_spec]
    omega
  · have h1 := List.sizeOf_lt_of_mem kv.2
    have h2 : sizeOf kv.1.2 < sizeOf kv.1 := by
      obtain ⟨a, b⟩ := kv.1
      simp
    simp only [Json.obj.sizeOf_spec]
    omega

/-- Mapping a function of the element over an attached list is mapping it
over the list. -/
theorem attach_map_fn (l : List α) (f : α → β) :
    l.attach.map (fun x => f x.1) = l.map f := by
  induction l with
  | nil => rfl
  | cons a as ih =>
    rw [List.attach_cons, List.map_cons, List.map_cons, List.map_map]
    congr 1

/-- Unfolding equations for the serializer, stated with a plain map so
that concrete values evaluate by rewriting. -/
theorem ser_null : ser .null = ['n', 'u', 'l', 'l'] := by rw [ser]

/-- Serialization of true. -/
theorem ser_true : ser (.bool true) = ['t', 'r', 'u', 'e'] := by rw [ser]

/-- Serialization of false. -/
theorem ser_false : ser (.bool false) = ['f', 'a', 'l', 's', 'e'] := by rw [ser]

/-- Serialization of a number. -/
theorem ser_num (m : Int) (e : Nat) : ser (.num m e) = serNum m e := by rw [ser]

/-- Serialization of a string value. -/
theorem ser_str (s : List Char) : ser (.str s) = serStr s := by rw [ser]

/-- Serialization of an array. -/
theorem ser_arr (xs : List Json) :
    ser (.arr xs) = '[' :: (List.intercalate [','] (xs.map ser)) ++ [']'] := by
  rw [ser, attach_map_fn xs ser]

/-- Serialization of an object. -/
theorem ser_obj (kvs : List (List Char × Json)) :
    ser (.obj kvs)
      = lbrace :: (List.intercalate [',']
          (kvs.map (fun kv => serStr kv.1 ++ ':' :: ser kv.2))) ++ [rbrace] := by
  rw [ser, attach_map_fn kvs (fun kv => serStr kv.1 ++ ':' :: ser kv.2)]

/-- JSON insignificant whitespace characters. -/
def jsonWsC (c : Char) : Bool := c == ' ' || c == '\t' || c == '\n' || c == '\r'

/-- Skip insignificant JSON whitespace. -/
def skipWs (s : List Char) : List Char := s.dropWhile jsonWsC

/-- Value of four hex digits. -/
def hex4 (a b c d : Char) : Option Nat := do
  let x ← hexVal a
  let y ← hexVal b
  let z ← hexVal c
  let w ← hexVal d
  pure (((x * 16 + y) * 16 + z) * 16 + w)

/-- Decoding table for the short JSON string escapes. -/
def escMap (e : Char) : Option Char :=
  if e == dquote then some dquote
  else if e == bslash then some bslash
  else if e == '/' then some '/'
  else if e == 'b' then some (Char.ofNat 8)
  else if e == 'f' then some (Char.ofNat 12)
  else if e == 'n' then some '\n'
  else if e == 'r' then some '\r'
  else if e == 't' then some '\t'
  else none

/-- Consume one logical character of a JSON string body: a raw character,
a short escape, or a unicode escape with surrogate pairs combined. A lone
surrogate (which JavaScript would keep as an unpaired UTF-16 code unit, not
representable as a unicode scalar) decodes to U+FFFD; this keeps success
and failure aligned with JSON.parse everywhere. Raw control characters and
bad escapes are rejected exactly as JSON.parse rejects them. -/
def unescOne : List Char → Option (Char × List Char)
  | [] => none
  | c :: rest =>
    if c == bslash then
      match rest with
      | [] => none
      | e :: rest2 =>
        if e == 'u' then
          match rest2 with
          | h1 :: h2 :: h3 :: h4 :: rest3 =>
            match hex4 h1 h2 h3 h4 with
            | none => none
            | some n =>
              if 0xD800 ≤ n && n ≤ 0xDBFF then
                match rest3 with
                | b1 :: e2 :: g1 :: g2 :: g3 :: g4 :: rest4 =>
                  if b1 == bslash && e2 == 'u' then
                    match hex4 g1 g2 g3 g4 with
                    | some n2 =>
                      if 0xDC00 ≤ n2 && n2 ≤ 0xDFFF then
                        some (Char.ofNat (0x10000 + (n - 0xD800) * 0x400 + (n2 - 0xDC00)), rest4)
                      else some (Char.ofNat 0xFFFD, rest3)
                    | none => some (Char.ofNat 0xFFFD, rest3)
                  else some (Char.ofNat 0xFFFD, rest3)
                | _ => some (Char.ofNat 0xFFFD, rest3)
              else if 0xDC00 ≤ n && n ≤ 0xDFFF then some (Char.ofNat 0xFFFD, rest3)
              else some (Char.ofNat n, rest3)
          | _ => none
        else
          match escMap e with
          | some d => some (d, rest2)
          | none => none
    else if c.toNat < 32 then none
    else some (c, rest)

/-- Consuming one logical string character strictly shrinks the input. -/
theorem unescOne_lt {s : List Char} {d : Char} {r : List Char}
    (h : unescOne s = some (d, r)) : r.length < s.length := by
  unfold unescOne at h
  repeat' split at h
  all_goals simp_all
  all_goals omega

/-- Parse the remainder of a JSON string literal after the opening quote,
returning the decoded content and the input after the closing quote. -/
def pStrRest (s : List Char) : Option (List Char × List Char) :=
  match s with
  | [] => none
  | c :: rest =>
    if c == dquote then some ([], rest)
    else
      match h : unescOne (c :: rest) with
      | none => none
      | some (d, rest') =>
        match pStrRest rest' with
        | some (content, r) => some (d :: content, r)
        | none => none
termination_by s.length
decreasing_by
  have := unescOne_lt h
  simpa using this

/-- Longest digit run at the head of the input and the rest. -/
def spanDigits (s : List Char) : List Char × List Char :=
  (s.takeWhile isDigitC, s.dropWhile isDigitC)

/-- Normalize a decimal mantissa/exponent pair: strip trailing zero digits
of the mantissa into the exponent and send a zero mantissa to exponent
zero, so equal decimal values get equal representations (mirroring the
fact that equal JavaScript numbers are indistinguishable). -/
def normNum (m : Int) (e : Nat) : Int × Nat :=
  if m = 0 then (0, 0)
  else match e with
  | 0 => (m, 0)
  | e' + 1 => if m % 10 = 0 then normNum (m / 10) e' else (m, e' + 1)
termination_by e
decreasing_by
  omega

/-- Parse the optional exponent part of a JSON number: a flag whether the
input is grammatical, the signed exponent value, and the rest. -/
def pExp : List Char → Bool × Int × List Char
  | [] => (true, 0, [])
  | c :: rest =>
    if c == 'e' || c == 'E' then
      let (sgn, r) : Int × List Char :=
        match rest with
        | '+' :: r2 => (1, r2)
        | '-' :: r2 => (-1, r2)
        | r2 => (1, r2)
      let ds := r.takeWhile isDigitC
      let r2 := r.dropWhile isDigitC
      if ds.isEmpty then (false, 0, r2) else (true, sgn * (natOfDigits ds : Int), r2)
    else (true, 0, c :: rest)

/-- Parse a JSON number literal at the head of the input, per the JSON
grammar: optional minus, integer part without leading zeros, optional
fraction, optional exponent. Returns the normalized decimal value and the
remaining input. -/
def pNum (s : List Char) : Option (Json × List Char) :=
  let (neg, s1) : Bool × List Char :=
    match s with
    | '-' :: r => (true, r)
    | r => (false, r)
  match s1 with
  | [] => none
  | c :: _ =>
    if !isDigitC c then none
    else
      let (ds, s2) := spanDigits s1
      if ds.length > 1 && ds.headD '0' == '0' then none
      else
        let (frOk, fracDs, s3) : Bool × List Char × List Char :=
          match s2 with
          | '.' :: r =>
            let (fs, r2) := spanDigits r
            (!fs.isEmpty, fs, r2)
          | r => (true, [], r)
        if !frOk then none
        else
          let (expOk, expVal, s4) := pExp s3
          if !expOk then none
          else
            let mag : Int := (natOfDigits (ds ++ fracDs) : Int)
            let mant : Int := if neg then -mag else mag
            let e0 : Int := (fracDs.length : Int) - expVal
            let me : Int × Nat :=
              if e0 ≤ 0 then (mant * 10 ^ ((-e0).toNat), 0) else (mant, e0.toNat)
            let mn := normNum me.1 me.2
            some (.num mn.1 mn.2, s4)

/-- Insert-or-update on an association list with the JavaScript object
assignment rule: an existing key keeps its position and gets the new value,
a new key is appended. -/
def objUpsert (l : List (List Char × α)) (k : List Char) (v : α) :
    List (List Char × α) :=
  if l.any (fun kv => kv.1 == k) then
    l.map (fun kv => if kv.1 == k then (kv.1, v) else kv)
  else l ++ [(k, v)]

/-- Object.fromEntries: fold the pair list into an object, later pairs
overwriting earlier ones at their original position. -/
def fromEntries (l : List (List Char × α)) : List (List Char × α) :=
  l.foldl (fun acc kv => objUpsert acc kv.1 kv.2) []

mutual

/-- Fueled JSON value parser, the model of JSON.parse on one value: parses
the value at the head of the input after skipping whitespace, returning it
and the unconsumed input. Fuel bounds the depth of the mutual recursion and
is always instantiated at more than the input length, which suffices. -/
def pVal : Nat → List Char → Option (Json × List Char)
  | 0, _ => none
  | f + 1, s =>
    match skipWs s with
    | [] => none
    | c :: rest =>
      if c == dquote then
        match pStrRest rest with
        | some (content, r) => some (.str content, r)
        | none => none
      else if c == '[' then
        match skipWs rest with
        | ']' :: r => some (.arr [], r)
        | r2 =>
          match pVal f r2 with
          | some (v, r3) => pArrTail f (skipWs r3) [v]
          | none => none
      else if c == lbrace then
        match skipWs rest with
        | [] => none
        | c2 :: r3 =>
          if c2 == rbrace then some (.obj [], r3)
          else
            match pMember f (c2 :: r3) with
            | some (k, v, r4) => pObjTail f (skipWs r4) [(k, v)]
            | none => none
      else if c == 'n' then
        match rest with
        | 'u' :: 'l' :: 'l' :: r => some (.null, r)
        | _ => none
      else if c == 't' then
        match rest with
        | 'r' :: 'u' :: 'e' :: r => some (.bool true, r)
        | _ => none
      else if c == 'f' then
        match rest with
        | 'a' :: 'l' :: 's' :: 'e' :: r => some (.bool false, r)
        | _ => none
      else if c == '-' || isDigitC c then pNum (c :: rest)
      else none

/-- Elements of an array after the first, at a comma or closing bracket. -/
def pArrTail : Nat → List Char → List Json → Option (Json × List Char)
  | 0, _, _ => none
  | f + 1, s, acc =>
    match s with
    | ']' :: r => some (.arr acc.reverse, r)
    | ',' :: r =>
      match pVal f r with
      | some (v, r2) => pArrTail f (skipWs r2) (v :: acc)
      | none => none
    | _ => none

/-- One object member: key string, colon, value. The input starts at the
key's opening quote (whitespace already skipped). -/
def pMember : Nat → List Char → Option (List Char × Json × List Char)
  | 0, _ => none
  | f + 1, s =>
    match s with
    | [] => none
    | c :: rest =>
      if c == dquote then
        match pStrRest rest with
        | some (k, r) =>
          match skipWs r with
          | ':' :: r2 =>
            match pVal f r2 with
            | some (v, r3) => some (k, v, r3)
            | none => none
          | _ => none
        | none => none
      else none

/-- Members of an object after the first, at a comma or closing brace.
Duplicate keys follow the JavaScript object assignment rule. -/
def pObjTail : Nat → List Char → List (List Char × Json) → Option (Json × List Char)
  | 0, _, _ => none
  | f + 1, s, acc =>
    match s with
    | c :: r =>
      if c == rbrace then some (.obj acc, r)
      else if c == ',' then
        match pMember f (skipWs r) with
        | some (k, v, r2) => pObjTail f (skipWs r2) (objUpsert acc k v)
        | none => none
      else none
    | [] => none

end

/-- Model of JSON.parse: parse one value with ample fuel, then require only
whitespace to remain; anything else is a parse failure. -/
def parseJson (s : List Char) : Option Json :=
  match pVal (s.length + 1) s with
  | some (v, rest) => if skipWs rest = [] then some v else none
  | none => none

end Botport

namespace Botport

/-! ### Response state machine (class BotAPIResponse) -/

/-- State of a BotAPIResponse: the current status code and the final-sent
flag (source fields statusCode, default 200, and sentFinal, default
false). -/
structure RespState where
  statusCode : Int := 200
  sentFinal : Bool := false
deriving Repr, DecidableEq

/-- Fresh Response, as constructed for each inbound request. -/
def respInit : RespState := {}

/-- One call of BotAPIResponse.json (source lines 96-116): when a final
response was already sent the call only warns and sends nothing; otherwise
the body is transmitted with the current status code, and the final flag is
set exactly when the status code is at least 200. Serialization in the
model is total, so the serialization catch branch of the source is
unreachable here. Returns the new state, the transmitted message if any,
and whether a warning was logged. -/
def jsonCall (st : RespState) (d : Json) : RespState × Option (Int × Json) × Bool :=
  if st.sentFinal then (st, none, true)
  else if st.statusCode ≥ 200 then
    ({ st with sentFinal := true }, some (st.statusCode, d), false)
  else (st, some (st.statusCode, d), false)

/-- One Response-API action a handler can perform: set the status code or
send a JSON body. -/
inductive RAction where
  | setStatus (c : Int)
  | json (d : Json)
deriving Repr

/-- Run a sequence of Response actions on one Response object, collecting
the transmitted messages in order and counting logged warnings. -/
def runActions (st : RespState) : List RAction → RespState × List (Int × Json) × Nat
  | [] => (st, [], 0)
  | .setStatus c :: rest => runActions { st with statusCode := c } rest
  | .json d :: rest =>
    let r := jsonCall st d
    let rec' := runActions r.1 rest
    (rec'.1, r.2.1.toList ++ rec'.2.1, (if r.2.2 then 1 else 0) + rec'.2.2)

/-- Wire line of one transmitted response message, the template-literal
concatenation of status and stringified body. -/
def respWire (status : Int) (body : Json) : List Char :=
  intDec status ++ ' ' :: ser body

/-- Number of json calls in an action sequence. -/
def countJson (l : List RAction) : Nat :=
  l.countP (fun a => match a with | .json _ => true | _ => false)

/-- Number of final (status at least 200) messages in a transmission. -/
def countFinals (msgs : List (Int × Json)) : Nat :=
  msgs.countP (fun m => decide (200 ≤ m.1))

/-- Generic error body the server synthesizes when a handler raises. -/
def internalErrorBody : Json := .obj [("error".data, .str "Internal Server Error".data)]

/-- Abstraction of one route-handler execution for the error path: the
sequence of Response-API calls the handler performed before returning or
raising, and whether it raised or rejected. -/
structure HandlerRun where
  acts : List RAction
  throws : Bool

/-- Server-side handler invocation with the catch of handleMessage (source
lines 273-280): run the handler's Response calls on a fresh Response; when
the handler threw and the Response has not sent a final reply, synthesize
the 500 reply through the same Response object; otherwise the error is only
logged. Returns all transmitted messages of the request. -/
def serverInvoke (h : HandlerRun) : List (Int × Json) :=
  let r := runActions respInit h.acts
  if h.throws && !r.1.sentFinal then
    r.2.1 ++ (runActions r.1 [.setStatus 500, .json internalErrorBody]).2.1
  else r.2.1

/-! ### Client correlation machine (class BotAPIClient) -/

/-- Client-side view of one pending call: whether its timeout timer is
still armed (clearTimeout has not been called on it) and whether an
onUpdate callback was provided. -/
structure Pend where
  armed : Bool
  hasOnUpdate : Bool
deriving Repr, DecidableEq

/-- Lifecycle state of one call inside the pending-requests map: a live
entry, or no entry (never registered or deleted). -/
inductive CState where
  | live (p : Pend)
  | absent
deriving Repr, DecidableEq

/-- Observable client-side effects of processing a reply or a timer. -/
inductive CEffect where
  | clearTimeout
  | update (status : Int) (body : Json)
  | resolve (status : Int) (body : Json)
  | rejectMalformed
  | rejectTimeout
deriving Repr

/-- Split at the first space character, the indexOf-based split of
BotAPIClient.handleReply; none when no space occurs (the reply is then
ignored). -/
def splitFirstSpace : List Char → Option (List Char × List Char)
  | [] => none
  | c :: rest =>
    if c == ' ' then some ([], rest)
    else
      match splitFirstSpace rest with
      | some (a, b) => some (c :: a, b)
      | none => none

/-- Model of BotAPIClient.handleReply (source lines 327-366) for a reply
already correlated to the live pending entry p (the author check, the
reply-reference check, and the map lookup passed). Returns the entry's new
state and the effects: an intermediate status clears the timeout and fires
onUpdate when provided, leaving the entry live; any other status with a
well-formed body clears the timeout, resolves, and deletes the entry; a
malformed body rejects only when the status is at least 200. -/
def handleReply (p : Pend) (content : List Char) : CState × List CEffect :=
  match splitFirstSpace content with
  | none => (.live p, [])
  | some (statusStr, bodyStr) =>
    match parseIntJS statusStr with
    | none => (.live p, [])
    | some status =>
      match parseJson bodyStr with
      | some body =>
        if 100 ≤ status ∧ status < 200 then
          (.live { p with armed := false },
            .clearTimeout :: (if p.hasOnUpdate then [.update status body] else []))
        else
          (.absent, [.clearTimeout, .resolve status body])
      | none =>
        if 200 ≤ status then (.absent, [.clearTimeout, .rejectMalformed])
        else (.live p, [])

/-- Events that can touch one pending call: an inbound correlated reply
with some content, or the firing of its timeout timer. A cleared timer
cannot fire, so firing is guarded on the armed flag; a timer whose entry is
gone was cleared on every deletion path and is a no-op. -/
inductive CEvent where
  | reply (content : List Char)
  | timer

/-- One event against one call's state. -/
def stepEvent : CState → CEvent → CState × List CEffect
  | .absent, _ => (.absent, [])
  | .live p, .reply content => handleReply p content
  | .live p, .timer =>
    if p.armed then (.absent, [.rejectTimeout]) else (.live p, [])

/-- Run a sequence of events, collecting effects. -/
def runEvents (s : CState) : List CEvent → CState × List CEffect
  | [] => (s, [])
  | e :: es =>
    let r := stepEvent s e
    let r2 := runEvents r.1 es
    (r2.1, r.2 ++ r2.2)

/-- Whether a reply content settles (resolves or rejects) a live call, as
opposed to being ignored or treated as a keep-alive. -/
def settles (content : List Char) : Bool :=
  match splitFirstSpace content with
  | none => false
  | some (statusStr, bodyStr) =>
    match parseIntJS statusStr with
    | none => false
    | some status =>
      match parseJson bodyStr with
      | some _ => !(decide (100 ≤ status) && decide (status < 200))
      | none => decide (200 ≤ status)

/-- Whether an event can settle a call that is live and disarmed. -/
def eventSettles : CEvent → Bool
  | .reply c => settles c
  | .timer => false

end Botport

namespace Botport

/-! ### Response machine lemmas and claims C5, C6 -/

/-- After the final flag is set, no action transmits anything, every json
call logs one warning, and the flag stays set. -/
theorem runActions_closed (acts : List RAction) :
    ∀ st : RespState, st.sentFinal = true →
      (runActions st acts).1.sentFinal = true ∧
      (runActions st acts).2.1 = [] ∧
      (runActions st acts).2.2 = countJson acts := by
  induction acts with
  | nil => intro st h; simp [runActions, countJson, h]
  | cons a rest ih =>
    intro st h
    cases a with
    | setStatus c =>
      have := ih { st with statusCode := c } (by simp [h])
      simp [runActions, countJson, List.countP_cons] at this ⊢
      exact this
    | json d =>
      obtain ⟨h1, h2, h3⟩ := ih st h
      simp [runActions, jsonCall, h, h1, h2, h3, countJson, List.countP_cons]
      omega

/-- A run of json calls from an open Response with an intermediate status
transmits each body with that status, sets no flag, warns never. -/
theorem runActions_intermediates (ds : List Json) :
    ∀ st : RespState, st.sentFinal = false → st.statusCode < 200 →
      runActions st (ds.map RAction.json)
        = (st, ds.map (fun x => (st.statusCode, x)), 0) := by
  induction ds with
  | nil => intro st h1 h2; simp [runActions]
  | cons d rest ih =>
    intro st h1 h2
    have hlt : ¬ st.statusCode ≥ 200 := by omega
    simp [runActions, jsonCall, h1, hlt, ih st h1 h2]

/-- Composition of action runs. -/
theorem runActions_append (l1 l2 : List RAction) :
    ∀ st : RespState,
      runActions st (l1 ++ l2)
        = ((runActions (runActions st l1).1 l2).1,
           (runActions st l1).2.1 ++ (runActions (runActions st l1).1 l2).2.1,
           (runActions st l1).2.2 + (runActions (runActions st l1).1 l2).2.2) := by
  induction l1 with
  | nil => intro st; simp [runActions]
  | cons a rest ih =>
    intro st
    cases a with
    | setStatus c => simp [runActions, ih]
    | json d => simp [runActions, ih]; omega

/-- C5: on a single Response, a json call with the final flag clear and
status at least 200 transmits the body and closes the Response; once
closed, any further actions transmit nothing, each later json call only
logs a warning, and the flag stays set; a json call with status below 200
transmits without setting the flag, so any number of intermediate
transmissions can precede the final one, after which a final-status json
call still transmits. -/
theorem response_final_write_invariant
    (st stF stI : RespState) (d : Json) (acts : List RAction) (ds : List Json) (c : Int)
    (hst : st.sentFinal = false) (hge : 200 ≤ st.statusCode)
    (hF : stF.sentFinal = true)
    (hI : stI.sentFinal = false) (hIlt : stI.statusCode < 200) (hc : 200 ≤ c) :
    jsonCall st d = ({ st with sentFinal := true }, some (st.statusCode, d), false)
    ∧ (runActions stF acts).2.1 = []
    ∧ (runActions stF acts).2.2 = countJson acts
    ∧ (runActions stF acts).1.sentFinal = true
    ∧ jsonCall stI d = (stI, some (stI.statusCode, d), false)
    ∧ runActions stI (ds.map RAction.json) = (stI, ds.map (fun x => (stI.statusCode, x)), 0)
    ∧ (runActions stI (ds.map RAction.json ++ [RAction.setStatus c, RAction.json d])).2.1
        = ds.map (fun x => (stI.statusCode, x)) ++ [(c, d)] := by
  have hclosed := runActions_closed acts stF hF
  have hmid := runActions_intermediates ds stI hI hIlt
  refine ⟨?_, hclosed.2.1, hclosed.2.2, hclosed.1, ?_, hmid, ?_⟩
  · simp [jsonCall, hst, hge]
  · have : ¬ stI.statusCode ≥ 200 := by omega
    simp [jsonCall, hI, this]
  · rw [runActions_append]
    simp [hmid, runActions, jsonCall, hI, hc]

/-- Witness for C5 at a concrete Response history. -/
theorem response_final_write_invariant_witness :
    jsonCall ⟨200, false⟩ Json.null = (⟨200, true⟩, some (200, Json.null), false)
    ∧ (runActions ⟨200, true⟩ [RAction.json Json.null]).2.1 = []
    ∧ (runActions ⟨200, true⟩ [RAction.json Json.null]).2.2 = countJson [RAction.json Json.null]
    ∧ (runActions ⟨200, true⟩ [RAction.json Json.null]).1.sentFinal = true
    ∧ jsonCall ⟨100, false⟩ Json.null = (⟨100, false⟩, some (100, Json.null), false)
    ∧ runActions ⟨100, false⟩ ([Json.null].map RAction.json)
        = (⟨100, false⟩, [Json.null].map (fun x => ((100 : Int), x)), 0)
    ∧ (runActions ⟨100, false⟩ ([Json.null].map RAction.json
          ++ [RAction.setStatus 201, RAction.json Json.null])).2.1
        = [Json.null].map (fun x => ((100 : Int), x)) ++ [(201, Json.null)] :=
  response_final_write_invariant ⟨200, false⟩ ⟨200, true⟩ ⟨100, false⟩ Json.null
    [RAction.json Json.null] [Json.null] 201 rfl (by norm_num) rfl rfl (by norm_num)
    (by norm_num)

/-- From an open Response, the number of transmitted final messages equals
one exactly when the run closed the Response, and zero otherwise. -/
theorem runActions_countFinals (acts : List RAction) :
    ∀ st : RespState, st.sentFinal = false →
      countFinals (runActions st acts).2.1
        = (if (runActions st acts).1.sentFinal then 1 else 0) := by
  induction acts with
  | nil => intro st h; simp [runActions, countFinals, h]
  | cons a rest ih =>
    intro st h
    cases a with
    | setStatus c => simpa [runActions] using ih { st with statusCode := c } (by simp [h])
    | json d =>
      by_cases hge : st.statusCode ≥ 200
      · have hclosed := runActions_closed rest { st with sentFinal := true } (by simp)
        simp [runActions, jsonCall, h, hge, countFinals, List.countP_cons, hclosed.1,
          hclosed.2.1]
      · have := ih st h
        simp [runActions, jsonCall, h, hge, countFinals, List.countP_cons] at this ⊢
        simpa [show ¬ (200 : Int) ≤ st.statusCode from by omega] using this

end Botport

namespace Botport

/-- Concatenation splits the final-message count. -/
theorem countFinals_append (a b : List (Int × Json)) :
    countFinals (a ++ b) = countFinals a + countFinals b := by
  simp [countFinals, List.countP_append]

/-- C6: when a handler raises or rejects, the server synthesizes exactly
one status-500 reply if and only if the Response has not sent a final
reply; if a final reply was already sent, nothing further is transmitted;
and in every case at most one final reply is ever transmitted for the
request. -/
theorem handler_failure_500 (h : HandlerRun) :
    (h.throws = true → (runActions respInit h.acts).1.sentFinal = false →
      serverInvoke h = (runActions respInit h.acts).2.1 ++ [(500, internalErrorBody)]
      ∧ countFinals (serverInvoke h) = 1)
    ∧ (h.throws = true → (runActions respInit h.acts).1.sentFinal = true →
      serverInvoke h = (runActions respInit h.acts).2.1)
    ∧ countFinals (serverInvoke h) ≤ 1 := by
  have hcount := runActions_countFinals h.acts respInit rfl
  have hone : countFinals [((500 : Int), internalErrorBody)] = 1 := by
    simp [countFinals]
  refine ⟨?_, ?_, ?_⟩
  · intro hth hopen
    have hemit :
        serverInvoke h = (runActions respInit h.acts).2.1 ++ [(500, internalErrorBody)] := by
      simp [serverInvoke, hth, hopen, runActions, jsonCall]
    refine ⟨hemit, ?_⟩
    rw [hemit, countFinals_append, hcount, hopen, hone]
    simp
  · intro hth hclosed
    simp [serverInvoke, hth, hclosed]
  · by_cases hth : h.throws = true
    · by_cases hopen : (runActions respInit h.acts).1.sentFinal = false
      · have hemit :
            serverInvoke h
              = (runActions respInit h.acts).2.1 ++ [(500, internalErrorBody)] := by
          simp [serverInvoke, hth, hopen, runActions, jsonCall]
        rw [hemit, countFinals_append, hcount, hopen, hone]
        simp
      · have hcl : (runActions respInit h.acts).1.sentFinal = true := by
          revert hopen; cases (runActions respInit h.acts).1.sentFinal <;> simp
        rw [show serverInvoke h = (runActions respInit h.acts).2.1 by
          simp [serverInvoke, hth, hcl]]
        rw [hcount, hcl]
        simp
    · have hf : h.throws = false := by revert hth; cases h.throws <;> simp
      rw [show serverInvoke h = (runActions respInit h.acts).2.1 by
        simp [serverInvoke, hf]]
      rw [hcount]
      split <;> omega

/-- Witness for C6 at a handler that raises immediately. -/
theorem handler_failure_500_witness :
    serverInvoke ⟨[], true⟩ = [((500 : Int), internalErrorBody)] := by
  have := (handler_failure_500 ⟨[], true⟩).1 rfl (by rfl)
  simpa [runActions] using this.1

end Botport

namespace Botport

/-- C8: a correlated reply whose body substring fails to parse as JSON
rejects the call as malformed (clearing the timeout and removing the
entry) when its status is at least 200, and is silently dropped with the
entry unchanged when its status is below 200. -/
theorem client_malformed_reply (p : Pend) (content statusStr bodyStr : List Char) (s : Int)
    (hsplit : splitFirstSpace content = some (statusStr, bodyStr))
    (hint : parseIntJS statusStr = some s)
    (hbad : parseJson bodyStr = none) :
    (200 ≤ s → handleReply p content = (.absent, [.clearTimeout, .rejectMalformed]))
    ∧ (s < 200 → handleReply p content = (.live p, [])) := by
  refine ⟨fun hs => ?_, fun hs => ?_⟩
  · simp [handleReply, hsplit, hint, hbad, hs]
  · simp [handleReply, hsplit, hint, hbad, show ¬ (200 : Int) ≤ s by omega]

/-- Witness for C8 at a concrete malformed final reply. -/
theorem client_malformed_reply_witness :
    handleReply ⟨true, false⟩ ("200 nope".data)
      = (.absent, [.clearTimeout, .rejectMalformed]) :=
  (client_malformed_reply ⟨true, false⟩ ("200 nope".data) ("200".data) ("nope".data) 200
    rfl rfl rfl).1 (by norm_num)

/-- C10: a correlated, well-formed reply whose integer status is below 100
is treated as a final response: the timeout is cleared, the call resolves
with status and body, and the entry is removed. -/
theorem client_substatus_final (p : Pend) (content statusStr bodyStr : List Char)
    (s : Int) (b : Json)
    (hsplit : splitFirstSpace content = some (statusStr, bodyStr))
    (hint : parseIntJS statusStr = some s)
    (hjson : parseJson bodyStr = some b)
    (hlt : s < 100) :
    handleReply p content = (.absent, [.clearTimeout, .resolve s b]) := by
  simp [handleReply, hsplit, hint, hjson, show ¬ (100 ≤ s ∧ s < 200) by omega]

/-- Witness for C10 at a concrete status-50 reply. -/
theorem client_substatus_final_witness :
    handleReply ⟨true, false⟩ ("50 true".data)
      = (.absent, [.clearTimeout, .resolve 50 (.bool true)]) :=
  client_substatus_final ⟨true, false⟩ ("50 true".data) ("50".data) ("true".data) 50
    (.bool true) rfl rfl rfl (by norm_num)

/-- A call state whose timer can no longer fire: the entry is gone, or it
is live with the timeout cleared. -/
def Disarmed : CState → Prop
  | .live q => q.armed = false
  | .absent => True

/-- Processing a reply never produces a timeout rejection. -/
theorem handleReply_no_timeout (p : Pend) (c : List Char) :
    CEffect.rejectTimeout ∉ (handleReply p c).2 := by
  unfold handleReply
  repeat' split
  all_goals simp

/-- One event keeps a disarmed call disarmed and cannot reject it with a
timeout. -/
theorem stepEvent_disarmed {s : CState} (hs : Disarmed s) (e : CEvent) :
    Disarmed (stepEvent s e).1 ∧ CEffect.rejectTimeout ∉ (stepEvent s e).2 := by
  cases s with
  | absent => cases e <;> simp [stepEvent, Disarmed]
  | live p =>
    cases e with
    | timer => simp [stepEvent, Disarmed] at hs ⊢; simp [hs, Disarmed]
    | reply c =>
      refine ⟨?_, handleReply_no_timeout p c⟩
      simp [stepEvent]
      simp [Disarmed] at hs
      unfold handleReply
      repeat' split
      all_goals simp [Disarmed, hs]

/-- No event sequence can produce a timeout rejection on a disarmed
call. -/
theorem runEvents_no_timeout (evs : List CEvent) :
    ∀ s : CState, Disarmed s →
      Disarmed (runEvents s evs).1 ∧ CEffect.rejectTimeout ∉ (runEvents s evs).2 := by
  induction evs with
  | nil => intro s hs; simpa [runEvents] using hs
  | cons e rest ih =>
    intro s hs
    obtain ⟨h1, h2⟩ := stepEvent_disarmed hs e
    obtain ⟨h3, h4⟩ := ih (stepEvent s e).1 h1
    simp [runEvents, h3, h2, h4]

/-- A non-settling event leaves a disarmed live entry exactly as it is. -/
theorem stepEvent_keeps (p : Pend) (hp : p.armed = false) (e : CEvent)
    (he : eventSettles e = false) :
    (stepEvent (.live p) e).1 = .live p := by
  cases e with
  | timer => simp [stepEvent, hp]
  | reply c =>
    have hpe : { p with armed := false } = p := by
      cases p
      simp_all
    simp only [stepEvent]
    simp [eventSettles] at he
    cases hsp : splitFirstSpace c with
    | none => simp [handleReply, hsp]
    | some pr =>
      obtain ⟨statusStr, bodyStr⟩ := pr
      cases hst : parseIntJS statusStr with
      | none => simp [handleReply, hsp, hst]
      | some st =>
        cases hbd : parseJson bodyStr with
        | none =>
          simp [settles, hsp, hst, hbd] at he
          simp [handleReply, hsp, hst, hbd, show ¬ (200 : Int) ≤ st by omega]
        | some body =>
          simp [settles, hsp, hst, hbd] at he
          simp [handleReply, hsp, hst, hbd, he, hpe]

/-- A sequence of non-settling events leaves a disarmed live entry as it
is. -/
theorem runEvents_keeps (evs : List CEvent) :
    ∀ p : Pend, p.armed = false → (∀ e ∈ evs, eventSettles e = false) →
      (runEvents (.live p) evs).1 = .live p := by
  induction evs with
  | nil => intro p hp _; simp [runEvents]
  | cons e rest ih =>
    intro p hp hall
    have h1 := stepEvent_keeps p hp e (hall e (by simp))
    have h2 := ih p hp (fun x hx => hall x (by simp [hx]))
    simp [runEvents, h1, h2]

/-- Composition of event runs. -/
theorem runEvents_append (l1 l2 : List CEvent) :
    ∀ s : CState,
      runEvents s (l1 ++ l2)
        = ((runEvents (runEvents s l1).1 l2).1,
           (runEvents s l1).2 ++ (runEvents (runEvents s l1).1 l2).2) := by
  induction l1 with
  | nil => intro s; simp [runEvents]
  | cons e rest ih => intro s; simp [runEvents, ih]

/-- C7: a well-formed intermediate reply clears the armed timeout, fires
onUpdate exactly when a callback was provided, and leaves the entry live;
from then on no event sequence can ever produce a timeout rejection, and a
well-formed final reply arriving after any number of non-settling events
(including timer expiries) still resolves the call and removes the
entry. -/
theorem keepalive_disarm (p : Pend) (content1 ss1 bs1 : List Char) (s1 : Int) (b1 : Json)
    (hsp1 : splitFirstSpace content1 = some (ss1, bs1))
    (hi1 : parseIntJS ss1 = some s1) (h100 : 100 ≤ s1) (h200 : s1 < 200)
    (hj1 : parseJson bs1 = some b1) :
    handleReply p content1
      = (.live { p with armed := false },
         .clearTimeout :: (if p.hasOnUpdate then [.update s1 b1] else []))
    ∧ (∀ evs : List CEvent,
        CEffect.rejectTimeout ∉ (runEvents (.live { p with armed := false }) evs).2)
    ∧ (∀ (evs : List CEvent) (content2 ss2 bs2 : List Char) (s2 : Int) (b2 : Json),
        (∀ e ∈ evs, eventSettles e = false) →
        splitFirstSpace content2 = some (ss2, bs2) →
        parseIntJS ss2 = some s2 → parseJson bs2 = some b2 → 200 ≤ s2 →
        runEvents (.live { p with armed := false }) (evs ++ [.reply content2])
          = (.absent,
             (runEvents (.live { p with armed := false }) evs).2
               ++ [.clearTimeout, .resolve s2 b2])) := by
  refine ⟨?_, ?_, ?_⟩
  · simp [handleReply, hsp1, hi1, hj1, show 100 ≤ s1 ∧ s1 < 200 from ⟨h100, h200⟩]
  · intro evs
    exact (runEvents_no_timeout evs _ (by simp [Disarmed])).2
  · intro evs content2 ss2 bs2 s2 b2 hall hsp2 hi2 hj2 hs2
    have hkeep := runEvents_keeps evs { p with armed := false } (by simp) hall
    rw [runEvents_append, hkeep]
    have hfin : handleReply { p with armed := false } content2
        = (.absent, [.clearTimeout, .resolve s2 b2]) := by
      simp [handleReply, hsp2, hi2, hj2, show ¬ (100 ≤ s2 ∧ s2 < 200) by omega]
    simp [runEvents, stepEvent, hfin]

/-- Witness for C7: keep-alive, then a timer expiry, then a final reply
that resolves. -/
theorem keepalive_disarm_witness :
    runEvents (.live ⟨false, true⟩) ([CEvent.timer] ++ [CEvent.reply ("200 true".data)])
      = (.absent, (runEvents (.live ⟨false, true⟩) [CEvent.timer]).2
          ++ [.clearTimeout, .resolve 200 (.bool true)]) := by
  have h := keepalive_disarm ⟨true, true⟩ ("100 null".data) ("100".data) ("null".data)
    100 .null rfl rfl (by norm_num) (by norm_num) rfl
  exact h.2.2 [CEvent.timer] ("200 true".data) ("200".data) ("true".data) 200 (.bool true)
    (by intro e he; simp at he; subst he; rfl) rfl rfl rfl (by norm_num)

end Botport

namespace Botport

/-! ### Router (BotAPIServer.register and the matching scan) -/

/-- HTTP-like methods of the protocol. -/
inductive Method where
  | GET
  | POST
  | PUT
  | PATCH
  | DELETE
deriving Repr, DecidableEq

/-- Wire name of a method. -/
def methodStr : Method → List Char
  | .GET => "GET".data
  | .POST => "POST".data
  | .PUT => "PUT".data
  | .PATCH => "PATCH".data
  | .DELETE => "DELETE".data

/-- The membership test of handleMessage (source line 251): an uppercased
token is a method exactly when it is one of the five names. -/
def methodOf (s : List Char) : Option Method :=
  if s = "GET".data then some .GET
  else if s = "POST".data then some .POST
  else if s = "PUT".data then some .PUT
  else if s = "PATCH".data then some .PATCH
  else if s = "DELETE".data then some .DELETE
  else none

/-- Word character of the regex word class. -/
def isWordC (c : Char) : Bool :=
  ('a' ≤ c && c ≤ 'z') || ('A' ≤ c && c ≤ 'Z') || isDigitC c || c == '_'

/-- One item of a compiled path pattern: a literal character or the
non-slash capture group substituted for a named parameter. Pattern
characters are modelled literally; the matching property is stated under a
well-formedness hypothesis excluding characters the regex engine would
treat specially. -/
inductive PatItem where
  | lit (c : Char)
  | group
deriving Repr, DecidableEq

/-- Compilation of a path template, the replace of register (source lines
150-160): each occurrence of a colon followed by at least one word
character becomes one capture group and pushes the greedy run of word
characters as the parameter name; every other character stays. -/
def compilePat (s : List Char) : List PatItem × List (List Char) :=
  match s with
  | [] => ([], [])
  | c :: rest =>
    if c = ':' ∧ !(rest.takeWhile isWordC).isEmpty then
      let name := rest.takeWhile isWordC
      let rest' := rest.dropWhile isWordC
      let pr := compilePat rest'
      (.group :: pr.1, name :: pr.2)
    else
      let pr := compilePat rest
      (.lit c :: pr.1, pr.2)
termination_by s.length
decreasing_by
  · exact Nat.lt_succ_of_le (dropWhile_len_le _ _)
  · simp

mutual

/-- Backtracking matcher for a compiled pattern against a path, modelling
the anchored regex with its optional trailing slash: with all items
consumed, the remaining input must be empty or one slash; a literal item
consumes its own character; a group captures the longest possible nonempty
run of non-slash characters, backtracking to shorter runs when the rest of
the pattern fails, as the greedy regex engine does. -/
def patMatch : List PatItem → List Char → Option (List (List Char))
  | [], s => if s = [] ∨ s = ['/'] then some [] else none
  | .lit _ :: _, [] => none
  | .lit c :: ps, x :: xs => if x = c then patMatch ps xs else none
  | .group :: ps, s => tryGroup ps s (s.takeWhile (fun c => c != '/')).length
termination_by ps s => (ps.length, 0)

/-- Group capture attempts, from length k down to one. -/
def tryGroup (ps : List PatItem) (s : List Char) : Nat → Option (List (List Char))
  | 0 => none
  | k + 1 =>
    match patMatch ps (s.drop (k + 1)) with
    | some caps => some (s.take (k + 1) :: caps)
    | none => tryGroup ps s k
termination_by k => (ps.length, k + 1)

end

/-- A registered route (interface Route of the source): method, original
path template, compiled pattern with parameter names in template order, an
opaque handler tag (handlers are code; the tag lets the development state
that projections do not depend on them), and the optional docs string. -/
structure Route where
  method : Method
  path : List Char
  pat : List PatItem
  paramKeys : List (List Char)
  handler : Nat
  docs : Option (List Char)
deriving Repr, DecidableEq

/-- Registration (source register, lines 150-160): compile the template
and record the route fields. -/
def mkRoute (m : Method) (path : List Char) (handler : Nat)
    (docs : Option (List Char)) : Route :=
  { method := m, path := path, pat := (compilePat path).1,
    paramKeys := (compilePat path).2, handler := handler, docs := docs }

/-- The matching scan of handleMessage (source lines 258-262): the first
route with the requested method whose pattern accepts the path wins; its
parameter names are zipped with the captured values and folded through
Object.fromEntries. -/
def scanRoutes : List Route → Method → List Char → Option (Route × List (List Char × List Char))
  | [], _, _ => none
  | r :: rs, m, path =>
    if r.method = m then
      match patMatch r.pat path with
      | some caps => some (r, fromEntries (r.paramKeys.zip caps))
      | none => scanRoutes rs m path
    else scanRoutes rs m path

/-- Whether a route accepts a method and path during the scan. -/
def accepts (r : Route) (m : Method) (path : List Char) : Bool :=
  decide (r.method = m) && (patMatch r.pat path).isSome

/-- One segment of a well-formed path template: a literal segment or a
named parameter occupying the whole segment. -/
inductive Seg where
  | lit (s : List Char)
  | param (name : List Char)

/-- Characters allowed in literal template segments for the matching
property: not a slash or colon (which have template meaning) and not a
regex metacharacter (the compiled pattern embeds template text verbatim
into the regex source, so a metacharacter would not match itself). -/
def litOK (c : Char) : Bool :=
  !(c == '/') && !(c == ':') && !(c == bslash) && !(c == '^') && !(c == '$')
  && !(c == '.') && !(c == '|') && !(c == '?') && !(c == '*') && !(c == '+')
  && !(c == '(') && !(c == ')') && !(c == '[') && !(c == ']')
  && !(c == lbrace) && !(c == rbrace)

/-- Well-formedness of one segment. -/
def segWF : Seg → Bool
  | .lit s => s.all litOK
  | .param n => !n.isEmpty && n.all isWordC

/-- Template text of one segment. -/
def segStr : Seg → List Char
  | .lit s => s
  | .param n => ':' :: n

/-- Path template of a segment list: a slash before each segment. -/
def tplOfSegs (segs : List Seg) : List Char :=
  (segs.map (fun sg => '/' :: segStr sg)).flatten

/-- Parameter names of a segment list in template order. -/
def segKeys (segs : List Seg) : List (List Char) :=
  segs.foldr (fun sg acc => match sg with | .param n => n :: acc | _ => acc) []

/-- Compiled pattern a well-formed segment list produces. -/
def patOfSegs (segs : List Seg) : List PatItem :=
  (segs.map (fun sg => PatItem.lit '/' ::
    match sg with
    | .lit s => s.map PatItem.lit
    | .param _ => [PatItem.group])).flatten

/-- The path obtained by substituting values for the parameters in
order. -/
def substSegs : List Seg → List (List Char) → List Char
  | [], _ => []
  | .lit s :: rest, vs => '/' :: s ++ substSegs rest vs
  | .param _ :: rest, [] => '/' :: substSegs rest []
  | .param _ :: rest, v :: vs => '/' :: v ++ substSegs rest vs

/-- Substituted values are acceptable parameter values: nonempty and
slash-free. -/
def valOK (v : List Char) : Bool := !v.isEmpty && v.all (fun c => c != '/')

end Botport


namespace Botport

/-- Compilation passes over a colon-free character run verbatim. -/
theorem compile_lit_run (s t : List Char)
    (h : s.all (fun c => !(c == ':')) = true) :
    compilePat (s ++ t) = ((s.map .lit) ++ (compilePat t).1, (compilePat t).2) := by
  induction s with
  | nil => simp
  | cons c rest ih =>
    simp only [List.all_cons, Bool.and_eq_true] at h
    have hc : c ≠ ':' := by simpa using h.1
    have hnc : ¬(c = ':' ∧ (!((rest ++ t).takeWhile isWordC).isEmpty) = true) :=
      fun hx => hc hx.1
    rw [List.cons_append, compilePat]
    simp only [hnc, if_false]
    rw [ih h.2]
    simp

/-- takeWhile and dropWhile at a boundary where the predicate flips. -/
theorem takeWhile_boundary (p : Char → Bool) (n t : List Char)
    (hn : n.all p = true) (ht : ∀ c, t.head? = some c → p c = false) :
    (n ++ t).takeWhile p = n ∧ (n ++ t).dropWhile p = t := by
  induction n with
  | nil =>
    cases t with
    | nil => simp
    | cons c ts =>
      have := ht c rfl
      simp [List.takeWhile, List.dropWhile, this]
  | cons a ns ih =>
    simp only [List.all_cons, Bool.and_eq_true] at hn
    obtain ⟨h1, h2⟩ := ih hn.2
    simp [List.takeWhile_cons, List.dropWhile_cons, hn.1, h1, h2]

/-- Head shape of a segment-list template. -/
theorem tplOfSegs_head (segs : List Seg) :
    tplOfSegs segs = [] ∨ ∃ u, tplOfSegs segs = '/' :: u := by
  cases segs with
  | nil => left; rfl
  | cons sg rest => right; exact ⟨segStr sg ++ tplOfSegs rest, by simp [tplOfSegs]⟩

/-- Head shape of a substituted path. -/
theorem substSegs_head (segs : List Seg) (vs : List (List Char)) :
    substSegs segs vs = [] ∨ ∃ u, substSegs segs vs = '/' :: u := by
  cases segs with
  | nil => left; rfl
  | cons sg rest =>
    cases sg with
    | lit s => right; exact ⟨s ++ substSegs rest vs, rfl⟩
    | param n =>
      cases vs with
      | nil => right; exact ⟨substSegs rest [], rfl⟩
      | cons v vs' => right; exact ⟨v ++ substSegs rest vs', rfl⟩

/-- Compiling the template of a well-formed segment list produces the
expected pattern and parameter names. -/
theorem compile_tpl (segs : List Seg) (hwf : segs.all segWF = true) :
    compilePat (tplOfSegs segs) = (patOfSegs segs, segKeys segs) := by
  induction segs with
  | nil => simp [tplOfSegs, patOfSegs, segKeys, compilePat]
  | cons sg rest ih =>
    simp only [List.all_cons, Bool.and_eq_true] at hwf
    have ihr := ih hwf.2
    cases sg with
    | lit s =>
      have hs : s.all (fun c => !(c == ':')) = true := by
        have hws := hwf.1
        simp only [segWF, List.all_eq_true] at hws ⊢
        intro c hcm
        have hl := hws c hcm
        simp [litOK] at hl ⊢
        tauto
      have e1 : tplOfSegs (Seg.lit s :: rest) = ('/' :: s) ++ tplOfSegs rest := by
        simp [tplOfSegs, segStr]
      have hs' : ('/' :: s).all (fun c => !(c == ':')) = true := by
        simp [hs]
      rw [e1, compile_lit_run _ _ hs', ihr]
      simp [patOfSegs, segKeys]
    | param n =>
      simp only [segWF, Bool.and_eq_true] at hwf
      have hn1 : n ≠ [] := by
        have := hwf.1.1
        cases n <;> simp_all
      have hn2 : n.all isWordC = true := hwf.1.2
      have hslash : ∀ c, (tplOfSegs rest).head? = some c → isWordC c = false := by
        intro c hc
        rcases tplOfSegs_head rest with h | ⟨u, h⟩
        · rw [h] at hc; simp at hc
        · rw [h] at hc
          simp at hc
          subst hc
          rfl
      obtain ⟨htw, hdw⟩ := takeWhile_boundary isWordC n (tplOfSegs rest) hn2 hslash
      have e1 : tplOfSegs (Seg.param n :: rest) = '/' :: ':' :: (n ++ tplOfSegs rest) := by
        simp [tplOfSegs, segStr]
      rw [e1]
      have hstep : compilePat ('/' :: ':' :: (n ++ tplOfSegs rest))
          = (.lit '/' :: (compilePat (':' :: (n ++ tplOfSegs rest))).1,
             (compilePat (':' :: (n ++ tplOfSegs rest))).2) := by
        have := compile_lit_run ['/'] (':' :: (n ++ tplOfSegs rest)) (by simp)
        simpa using this
      rw [hstep, compilePat]
      have hcond : (':' : Char) = ':' ∧ (!((n ++ tplOfSegs rest).takeWhile isWordC).isEmpty) = true := by
        refine ⟨rfl, ?_⟩
        rw [htw]
        cases n <;> simp_all
      simp only [hcond, if_pos, htw, hdw, ihr]
      simp [patOfSegs, segKeys, hn1]

/-- A run of literal items consumes exactly its own text. -/
theorem patMatch_lit_run (s : List Char) (ps : List PatItem) (r : List Char) :
    patMatch (s.map .lit ++ ps) (s ++ r) = patMatch ps r := by
  induction s with
  | nil => simp
  | cons c cs ih => simp [patMatch, ih]

/-- A group followed by the rest of the pattern captures exactly a
nonempty slash-free value placed before a slash-led (or empty) rest of the
path: the greedy first attempt already succeeds. -/
theorem patMatch_group (ps : List PatItem) (v r : List Char) (caps : List (List Char))
    (hv : valOK v = true)
    (hr : r = [] ∨ ∃ u, r = '/' :: u)
    (hm : patMatch ps r = some caps) :
    patMatch (.group :: ps) (v ++ r) = some (v :: caps) := by
  have hv' : (!v.isEmpty) = true ∧ v.all (fun c => c != '/') = true := by
    simpa [valOK] using hv
  have ht : ∀ c, r.head? = some c → (c != '/') = false := by
    intro c hc
    rcases hr with h | ⟨u, h⟩
    · rw [h] at hc; simp at hc
    · rw [h] at hc; simp at hc; subst hc; simp
  obtain ⟨htw, _⟩ := takeWhile_boundary (fun c => c != '/') v r hv'.2 ht
  rw [patMatch, htw]
  cases hvv : v with
  | nil => rw [hvv] at hv'; simp at hv'
  | cons c cs =>
    rw [← hvv]
    have hlen : v.length = cs.length + 1 := by rw [hvv]; simp
    rw [hlen, tryGroup]
    rw [← hlen]
    have hdrop : (v ++ r).drop v.length = r := List.drop_left v r
    have htake : (v ++ r).take v.length = v := List.take_left v r
    rw [hdrop, hm, htake]

/-- Matching the compiled pattern of a well-formed template against the
substituted path returns exactly the substituted values. -/
theorem patMatch_subst (segs : List Seg) :
    ∀ vs : List (List Char), segs.all segWF = true →
      vs.all valOK = true → vs.length = (segKeys segs).length →
      patMatch (patOfSegs segs) (substSegs segs vs) = some vs := by
  induction segs with
  | nil =>
    intro vs _ _ hlen
    simp [segKeys] at hlen
    subst hlen
    simp [patOfSegs, substSegs, patMatch]
  | cons sg rest ih =>
    intro vs hwf hv hlen
    simp only [List.all_cons, Bool.and_eq_true] at hwf
    cases sg with
    | lit s =>
      have e1 : patOfSegs (Seg.lit s :: rest) = .lit '/' :: (s.map .lit ++ patOfSegs rest) := by
        simp [patOfSegs]
      have e2 : substSegs (Seg.lit s :: rest) vs = '/' :: (s ++ substSegs rest vs) := rfl
      rw [e1, e2, patMatch]
      simp only [if_pos rfl]
      rw [patMatch_lit_run]
      exact ih vs hwf.2 hv (by simpa [segKeys] using hlen)
    | param n =>
      cases vs with
      | nil => simp [segKeys] at hlen
      | cons v vs' =>
        simp only [List.all_cons, Bool.and_eq_true] at hv
        have e1 : patOfSegs (Seg.param n :: rest) = .lit '/' :: .group :: patOfSegs rest := by
          simp [patOfSegs]
        have e2 : substSegs (Seg.param n :: rest) (v :: vs')
            = '/' :: (v ++ substSegs rest vs') := rfl
        rw [e1, e2, patMatch]
        simp only [if_pos rfl]
        exact patMatch_group _ v _ vs' hv.1 (substSegs_head rest vs')
          (ih vs' hwf.2 hv.2 (by simp [segKeys] at hlen ⊢; omega))

/-- The scan returns the first accepting route with its captures. -/
theorem scanRoutes_first (routes : List Route) :
    ∀ (i : Nat) (r : Route) (m : Method) (path : List Char) (caps : List (List Char)),
      routes[i]? = some r →
      (∀ j, j < i → ∀ rj, routes[j]? = some rj → accepts rj m path = false) →
      r.method = m → patMatch r.pat path = some caps →
      scanRoutes routes m path = some (r, fromEntries (r.paramKeys.zip caps)) := by
  induction routes with
  | nil => intro i r m path caps h _ _ _; simp at h
  | cons r0 rs ih =>
    intro i r m path caps hget hbef hm hmatch
    cases i with
    | zero =>
      simp at hget
      subst hget
      simp [scanRoutes, hm, hmatch]
    | succ i' =>
      simp at hget
      have h0 := hbef 0 (by omega) r0 (by simp)
      have htail : ∀ j, j < i' → ∀ rj, rs[j]? = some rj → accepts rj m path = false :=
        fun j hj rj hrj => hbef (j + 1) (by omega) rj (by simpa using hrj)
      by_cases hm0 : r0.method = m
      · have hnone : patMatch r0.pat path = none := by
          have : (patMatch r0.pat path).isSome = false := by
            simpa [accepts, hm0] using h0
          cases hmm : patMatch r0.pat path
          · rfl
          · rw [hmm] at this; simp at this
        simp [scanRoutes, hm0, hnone]
        exact ih i' r m path caps hget htail hm hmatch
      · simp [scanRoutes, hm0]
        exact ih i' r m path caps hget htail hm hmatch

/-- C2: for a route registered from a well-formed template (parameters
occupy whole segments; literal segments avoid regex metacharacters) and
any path obtained by substituting nonempty slash-free values for the
parameters, the scan of the route table returns exactly that route as soon
as no earlier-registered route accepts the path (so with two accepting
routes the one registered first wins), with the parameter map equal to the
parameter names in template order zipped with the substituted values and
folded through Object.fromEntries. -/
theorem router_match_spec (routes : List Route) (i : Nat) (m : Method)
    (segs : List Seg) (vs : List (List Char)) (hdl : Nat) (docs : Option (List Char))
    (hwf : segs.all segWF = true) (hv : vs.all valOK = true)
    (hlen : vs.length = (segKeys segs).length)
    (hget : routes[i]? = some (mkRoute m (tplOfSegs segs) hdl docs))
    (hbef : ∀ j, j < i → ∀ rj, routes[j]? = some rj →
      accepts rj m (substSegs segs vs) = false) :
    scanRoutes routes m (substSegs segs vs)
      = some (mkRoute m (tplOfSegs segs) hdl docs,
              fromEntries ((segKeys segs).zip vs)) := by
  have hc := compile_tpl segs hwf
  have hmatch : patMatch (mkRoute m (tplOfSegs segs) hdl docs).pat (substSegs segs vs)
      = some vs := by
    simp only [mkRoute, hc]
    exact patMatch_subst segs vs hwf hv hlen
  have hkeys : (mkRoute m (tplOfSegs segs) hdl docs).paramKeys = segKeys segs := by
    simp [mkRoute, hc]
  have := scanRoutes_first routes i _ m _ vs hget hbef (by simp [mkRoute]) hmatch
  rw [this, hkeys]

/-- Witness for C2: two identical GET templates are registered; the path
substituting a user id into the first matches the first route with the id
captured under the parameter name. -/
theorem router_match_spec_witness :
    scanRoutes
      [mkRoute .GET (tplOfSegs [Seg.lit "balance".data, Seg.param "userId".data]) 0 none,
       mkRoute .GET (tplOfSegs [Seg.lit "balance".data, Seg.param "userId".data]) 1 none]
      .GET
      (substSegs [Seg.lit "balance".data, Seg.param "userId".data]
        ["742396813826457750".data])
      = some (mkRoute .GET (tplOfSegs [Seg.lit "balance".data, Seg.param "userId".data]) 0 none,
              fromEntries ((segKeys [Seg.lit "balance".data, Seg.param "userId".data]).zip
                ["742396813826457750".data])) :=
  router_match_spec _ 0 .GET _ _ 0 none rfl rfl rfl rfl
    (fun j hj rj _ => absurd hj (Nat.not_lt_zero j))

end Botport

namespace Botport

/-! ### Percent-encoding and the URL model -/

/-- Unreserved characters of encodeURIComponent, which pass through
unencoded. -/
def uriUnreservedC (c : Char) : Bool :=
  c.isAlpha || isDigitC c || c == '-' || c == '_' || c == '.' || c == '!'
  || c == '~' || c == '*' || c == squote || c == '(' || c == ')'

/-- UTF-8 bytes of one unicode scalar. -/
def utf8EncodeChar (c : Char) : List Nat :=
  let v := c.toNat
  if v < 0x80 then [v]
  else if v < 0x800 then [0xC0 + v / 64, 0x80 + v % 64]
  else if v < 0x10000 then [0xE0 + v / 4096, 0x80 + (v / 64) % 64, 0x80 + v % 64]
  else [0xF0 + v / 262144, 0x80 + (v / 4096) % 64, 0x80 + (v / 64) % 64, 0x80 + v % 64]

/-- Percent escape of one byte, uppercase hex as the builtins emit. -/
def pctOfByte (b : Nat) : List Char := ['%', hexDigitUpper (b / 16), hexDigitUpper (b % 16)]

/-- Model of encodeURIComponent: unreserved characters pass, every other
character is UTF-8 encoded and percent-escaped bytewise. -/
def encodeURIComponent (s : List Char) : List Char :=
  (s.map (fun c =>
    if uriUnreservedC c then [c] else ((utf8EncodeChar c).map pctOfByte).flatten)).flatten

/-- One percent escape at the head of the input: its byte value and the
rest. -/
def pctByte : List Char → Option (Nat × List Char)
  | c :: h1 :: h2 :: rest =>
    if c == '%' then
      match hexVal h1, hexVal h2 with
      | some x, some y => some (x * 16 + y, rest)
      | _, _ => none
    else none
  | _ => none

/-- Reading one percent escape consumes three characters. -/
theorem pctByte_len {s : List Char} {b : Nat} {r : List Char}
    (h : pctByte s = some (b, r)) : r.length + 3 = s.length := by
  unfold pctByte at h
  repeat' split at h
  all_goals simp_all

/-- UTF-8 continuation byte. -/
def isCont (b : Nat) : Bool := 0x80 ≤ b && b ≤ 0xBF

/-- Allowed second byte of a three-byte sequence (excludes overlong forms
and surrogates). -/
def cont3Ok (b b2 : Nat) : Bool :=
  if b == 0xE0 then 0xA0 ≤ b2 && b2 ≤ 0xBF
  else if b == 0xED then 0x80 ≤ b2 && b2 ≤ 0x9F
  else isCont b2

/-- Allowed second byte of a four-byte sequence (excludes overlong forms
and values beyond the last scalar). -/
def cont4Ok (b b2 : Nat) : Bool :=
  if b == 0xF0 then 0x90 ≤ b2 && b2 ≤ 0xBF
  else if b == 0xF4 then 0x80 ≤ b2 && b2 ≤ 0x8F
  else isCont b2

/-- Model of decodeURIComponent: percent escapes are decoded bytewise and
the byte runs must form valid (minimal, scalar-valued) UTF-8; any
malformed escape or byte sequence throws, giving none. Characters other
than the percent sign pass through. -/
def decodeURIComponentOpt (s : List Char) : Option (List Char) :=
  match s with
  | [] => some []
  | c :: rest =>
    if c == '%' then
      match h : pctByte (c :: rest) with
      | none => none
      | some (b, rest1) =>
        if b < 0x80 then
          match decodeURIComponentOpt rest1 with
          | some out => some (Char.ofNat b :: out)
          | none => none
        else if 0xC2 ≤ b && b ≤ 0xDF then
          match h2 : pctByte rest1 with
          | none => none
          | some (b2, rest2) =>
            if isCont b2 then
              match decodeURIComponentOpt rest2 with
              | some out => some (Char.ofNat ((b - 0xC0) * 64 + (b2 - 0x80)) :: out)
              | none => none
            else none
        else if 0xE0 ≤ b && b ≤ 0xEF then
          match h2 : pctByte rest1 with
          | none => none
          | some (b2, rest2) =>
            match h3 : pctByte rest2 with
            | none => none
            | some (b3, rest3) =>
              if cont3Ok b b2 && isCont b3 then
                match decodeURIComponentOpt rest3 with
                | some out =>
                  some (Char.ofNat ((b - 0xE0) * 4096 + (b2 - 0x80) * 64 + (b3 - 0x80)) :: out)
                | none => none
              else none
        else if 0xF0 ≤ b && b ≤ 0xF4 then
          match h2 : pctByte rest1 with
          | none => none
          | some (b2, rest2) =>
            match h3 : pctByte rest2 with
            | none => none
            | some (b3, rest3) =>
              match h4 : pctByte rest3 with
              | none => none
              | some (b4, rest4) =>
                if cont4Ok b b2 && isCont b3 && isCont b4 then
                  match decodeURIComponentOpt rest4 with
                  | some out =>
                    some (Char.ofNat ((b - 0xF0) * 262144 + (b2 - 0x80) * 4096
                      + (b3 - 0x80) * 64 + (b4 - 0x80)) :: out)
                  | none => none
                else none
        else none
    else
      match decodeURIComponentOpt rest with
      | some out => some (c :: out)
      | none => none
termination_by s.length
decreasing_by
  all_goals
    (first
      | (have e1 := pctByte_len h
         first
          | (have e2 := pctByte_len h2
             first
              | (have e3 := pctByte_len h3
                 first
                  | (have e4 := pctByte_len h4; simp at e1 ⊢; omega)
                  | (simp at e1 ⊢; omega))
              | (simp at e1 ⊢; omega))
          | (simp at e1 ⊢; omega))
      | simp)

end Botport

namespace Botport

/-- Fragment strip: the first hash starts the fragment. -/
def stripFragment (s : List Char) : List Char := s.takeWhile (fun c => c != '#')

/-- Split path-and-query at the first question mark. -/
def splitQuery (s : List Char) : List Char × List Char :=
  (s.takeWhile (fun c => c != '?'), (s.dropWhile (fun c => c != '?')).drop 1)

/-- Slash or backslash; both separate path segments under the special
(http) scheme. -/
def isSlashC (c : Char) : Bool := c == '/' || c == bslash

/-- Single-dot path segment, including the percent form. -/
def isSingleDot (seg : List Char) : Bool :=
  seg == ['.'] || seg.map Char.toLower == ['%', '2', 'e']

/-- Double-dot path segment, including the percent forms. -/
def isDoubleDot (seg : List Char) : Bool :=
  let low := seg.map Char.toLower
  seg == ['.', '.'] || low == '.' :: '%' :: '2' :: 'e' :: []
  || low == '%' :: '2' :: 'e' :: '.' :: []
  || low == '%' :: '2' :: 'e' :: '%' :: '2' :: 'e' :: []

/-- Characters the URL parser keeps verbatim in a path segment: printable
ASCII outside the path percent-encode set. -/
def pathSafeC (c : Char) : Bool :=
  let v := c.toNat
  32 < v && v < 127 && !(c == dquote) && !(c == '#') && !(c == '<')
  && !(c == '>') && !(c == '?') && !(c == Char.ofNat 96)
  && !(c == lbrace) && !(c == rbrace)

/-- Percent-encode the characters a safety predicate rejects. -/
def pctEncodeWith (safe : Char → Bool) (s : List Char) : List Char :=
  (s.map (fun c =>
    if safe c then [c] else ((utf8EncodeChar c).map pctOfByte).flatten)).flatten

/-- The dot-segment collapsing walk of the URL path state: double dots pop
the last produced segment, single dots vanish, and when they end the path
an empty segment keeps the trailing slash. -/
def dotStack (acc : List (List Char)) : List (List Char) → List (List Char)
  | [] => acc
  | seg :: rest =>
    if isDoubleDot seg then
      if rest.isEmpty then acc.dropLast ++ [[]] else dotStack (acc.dropLast) rest
    else if isSingleDot seg then
      if rest.isEmpty then acc ++ [[]] else dotStack acc rest
    else dotStack (acc ++ [seg]) rest

/-- Pathname the URL constructor produces for a scheme-less,
authority-less path against the localhost base: segments split on slashes
and backslashes, dot segments collapsed, each kept segment percent-encoded
outside the path-safe set, and everything rooted at a slash (a relative
path resolves against the base directory, which is the root). -/
def urlPathname (rawPath : List Char) : List Char :=
  let segs :=
    match rawPath with
    | [] => []
    | c :: rest => if isSlashC c then splitChar isSlashC rest else splitChar isSlashC (c :: rest)
  let out := dotStack [] segs
  '/' :: List.intercalate ['/'] (out.map (pctEncodeWith pathSafeC))

/-- Lenient percent-decoding of one form-urlencoded token, the
URLSearchParams byte semantics: plus becomes space, well-formed percent
escapes are decoded bytewise with byte runs read as UTF-8, and anything
malformed (a stray percent, or an invalid byte sequence) is not an error:
a malformed escape stays literal and an invalid sequence becomes the
replacement character. -/
def queryDecode (s : List Char) : List Char :=
  match s with
  | [] => []
  | c :: rest =>
    if c == '+' then ' ' :: queryDecode rest
    else if c == '%' then
      match h : pctByte (c :: rest) with
      | none => c :: queryDecode rest
      | some (b, rest1) =>
        if b < 0x80 then Char.ofNat b :: queryDecode rest1
        else if 0xC2 ≤ b && b ≤ 0xDF then
          match h2 : pctByte rest1 with
          | some (b2, rest2) =>
            if isCont b2 then
              Char.ofNat ((b - 0xC0) * 64 + (b2 - 0x80)) :: queryDecode rest2
            else Char.ofNat 0xFFFD :: queryDecode rest1
          | none => Char.ofNat 0xFFFD :: queryDecode rest1
        else if 0xE0 ≤ b && b ≤ 0xEF then
          match h2 : pctByte rest1 with
          | some (b2, rest2) =>
            match h3 : pctByte rest2 with
            | some (b3, rest3) =>
              if cont3Ok b b2 && isCont b3 then
                Char.ofNat ((b - 0xE0) * 4096 + (b2 - 0x80) * 64 + (b3 - 0x80))
                  :: queryDecode rest3
              else Char.ofNat 0xFFFD :: queryDecode rest1
            | none => Char.ofNat 0xFFFD :: queryDecode rest1
          | none => Char.ofNat 0xFFFD :: queryDecode rest1
        else if 0xF0 ≤ b && b ≤ 0xF4 then
          match h2 : pctByte rest1 with
          | some (b2, rest2) =>
            match h3 : pctByte rest2 with
            | some (b3, rest3) =>
              match h4 : pctByte rest3 with
              | some (b4, rest4) =>
                if cont4Ok b b2 && isCont b3 && isCont b4 then
                  Char.ofNat ((b - 0xF0) * 262144 + (b2 - 0x80) * 4096
                    + (b3 - 0x80) * 64 + (b4 - 0x80)) :: queryDecode rest4
                else Char.ofNat 0xFFFD :: queryDecode rest1
              | none => Char.ofNat 0xFFFD :: queryDecode rest1
            | none => Char.ofNat 0xFFFD :: queryDecode rest1
          | none => Char.ofNat 0xFFFD :: queryDecode rest1
        else Char.ofNat 0xFFFD :: queryDecode rest1
    else c :: queryDecode rest
termination_by s.length
decreasing_by
  all_goals
    (first
      | (have e1 := pctByte_len h
         first
          | (have e2 := pctByte_len h2
             first
              | (have e3 := pctByte_len h3
                 first
                  | (have e4 := pctByte_len h4; simp at e1 ⊢; omega)
                  | (simp at e1 ⊢; omega))
              | (simp at e1 ⊢; omega))
          | (simp at e1 ⊢; omega))
      | simp)

/-- Parse a raw query string with form-urlencoded semantics: pieces split
on ampersands, empty pieces skipped, each piece split at its first equals
sign, both sides leniently decoded. -/
def parseUrlencoded (q : List Char) : List (List Char × List Char) :=
  (splitChar (fun c => c == '&') q).filterMap (fun piece =>
    if piece.isEmpty then none
    else
      some (queryDecode (piece.takeWhile (fun c => c != '=')),
            queryDecode ((piece.dropWhile (fun c => c != '=')).drop 1)))

/-- Model of parsing the decoded route with the WHATWG URL constructor
against the localhost base, for route strings that carry no scheme and no
authority of their own (after percent-decoding a single whitespace-free
token, a route could in principle also name a scheme or start with two
slashes and select another authority; no property stated here exercises
those shapes). The fragment is cut at the first hash, the query is the
part after the first question mark, the pathname is resolved by
urlPathname, and the query map is the form-urlencoded parse folded through
Object.fromEntries, exactly the searchParams entries the code reads. -/
def urlParse (route : List Char) : List Char × List (List Char × List Char) :=
  let nofrag := stripFragment route
  let pq := splitQuery nofrag
  (urlPathname pq.1, fromEntries (parseUrlencoded pq.2))

end Botport

namespace Botport

/-! ### Server command dispatch (BotAPIServer.handleMessage) -/

/-- Observable outcome of dispatching one command: the docs attachment
reply, a raw reply line (the route listing), a Response-mediated reply
with a status and body, the invocation of a matched handler with its
request data, or an exception escaping the message handler (no reply at
all). -/
inductive ServerOut where
  | docsReply
  | rawReply (line : List Char)
  | respond (status : Int) (body : Json)
  | dispatch (r : Route) (params : List (List Char × List Char))
      (query : List (List Char × List Char)) (body : Json)
  | crash
deriving Repr

/-- Discovery projection of one route (interface APIRouteInfo, source
lines 14-18 and 235-239): method, path, optional docs; an absent docs
field is omitted from the serialization, and the handler never appears. -/
def routeInfoJson (r : Route) : Json :=
  .obj ([("method".data, .str (methodStr r.method)), ("path".data, .str r.path)]
    ++ (match r.docs with
        | some d => [("docs".data, .str d)]
        | none => []))

/-- Error body for an unparsable request body. -/
def invalidJsonBody : Json := .obj [("error".data, .str "Invalid JSON body".data)]

/-- Error body naming an invalid method token. -/
def invalidMethodBody (method : List Char) : Json :=
  .obj [("error".data, .str ("Invalid method ".data ++ squote :: (method ++ [squote])))]

/-- Error body for an unmatched route. -/
def notFoundBody (m : Method) (pathname : List Char) : Json :=
  .obj [("error".data, .str ("Route not found: ".data ++ methodStr m ++ ' ' :: pathname))]

/-- Dispatch of one already-extracted, trimmed command (source lines
227-284): the reserved commands first; otherwise the whitespace split
yields the method token, the raw route (default a lone slash), and the
rejoined body remainder; the raw route is percent-decoded (a decoding
failure throws out of the async handler, so no reply at all: crash), the
uppercased method token is validated before the URL parse, the scan picks
the first matching route, and a nonempty body string must parse as JSON
before the handler is dispatched; no match gives 404. -/
def handleCommand (routes : List Route) (command : List Char) : ServerOut :=
  if command = [] ∨ command = "docs".data then .docsReply
  else if command = "routes".data then
    .rawReply ("200 ".data ++ ser (.arr (routes.map routeInfoJson)))
  else
    let parts := splitWs command
    let method := (parts.headD []).map Char.toUpper
    let rawRoute := (parts.drop 1).headD ['/']
    let bodyString := joinSp (parts.drop 2)
    match decodeURIComponentOpt rawRoute with
    | none => .crash
    | some route =>
      match methodOf method with
      | none => .respond 400 (invalidMethodBody method)
      | some m =>
        let pq := urlParse route
        match scanRoutes routes m pq.1 with
        | some rp =>
          if bodyString ≠ [] then
            match parseJson bodyString with
            | none => .respond 400 invalidJsonBody
            | some b => .dispatch rp.1 rp.2 pq.2 b
          else .dispatch rp.1 rp.2 pq.2 Json.null
        | none => .respond 404 (notFoundBody m pq.1)

/-- C9: the routes command always yields exactly one raw reply whose line
is the status 200 followed by the JSON array of the APIRouteInfo
projections of the registered routes, in registration order; and the
projection of a route does not depend on its handler. -/
theorem routes_listing (routes : List Route) :
    handleCommand routes ("routes".data)
      = .rawReply ("200 ".data ++ ser (.arr (routes.map routeInfoJson)))
    ∧ (∀ (r : Route) (n : Nat), routeInfoJson { r with handler := n } = routeInfoJson r) := by
  refine ⟨by simp [handleCommand], fun r n => rfl⟩

/-- Counterexample for C3: the reserved command routes has a first token
that uppercases to a non-method, yet the server answers it with the route
listing rather than a 400; and a command whose raw route fails to percent
decode makes the async handler throw before the method check, producing no
reply at all. -/
theorem invalid_method_400_counterexample :
    methodOf (((splitWs "routes".data).headD []).map Char.toUpper) = none
    ∧ handleCommand [] "routes".data = .rawReply ("200 []".data)
    ∧ (∀ (s : Int) (b : Json), handleCommand [] "routes".data ≠ .respond s b)
    ∧ handleCommand [] "FOO %".data = .crash
    ∧ (∀ (s : Int) (b : Json), handleCommand [] "FOO %".data ≠ .respond s b) := by
  have hroutes : handleCommand [] "routes".data = .rawReply ("200 []".data) := by
    simp [handleCommand, ser_arr, List.intercalate]
  have hcrash : handleCommand [] "FOO %".data = .crash := by
    simp [handleCommand, splitWs, splitChar, splitCharAux, isWs, dropMidEmpty,
      decodeURIComponentOpt, pctByte, hexVal]
  refine ⟨rfl, hroutes, ?_, hcrash, ?_⟩
  · intro s b h
    rw [hroutes] at h
    exact ServerOut.noConfusion h
  · intro s b h
    rw [hcrash] at h
    exact ServerOut.noConfusion h

/-- C3 as amended: for every command other than the reserved ones (empty,
docs, routes) whose raw route percent-decodes, if the uppercased first
token is not one of the five methods the server replies 400 with an error
body naming that token, and the outcome never consults the route table
(any table gives the same outcome as the empty one). -/
theorem invalid_method_400 (routes : List Route) (command route : List Char)
    (h1 : command ≠ []) (h2 : command ≠ "docs".data) (h3 : command ≠ "routes".data)
    (hdec : decodeURIComponentOpt ((splitWs command |>.drop 1).headD ['/']) = some route)
    (hbad : methodOf (((splitWs command).headD []).map Char.toUpper) = none) :
    handleCommand routes command
      = .respond 400 (invalidMethodBody (((splitWs command).headD []).map Char.toUpper))
    ∧ handleCommand routes command = handleCommand [] command := by
  have hres : ¬(command = [] ∨ command = "docs".data) := by
    intro h
    cases h with
    | inl h => exact h1 h
    | inr h => exact h2 h
  constructor <;> simp only [handleCommand, hres, if_false, h3, hdec, hbad]

/-- Witness for C3 as amended, at the command FOO /x. -/
theorem invalid_method_400_witness :
    handleCommand [] ("FOO /x".data)
      = ServerOut.respond 400 (invalidMethodBody ("FOO".data)) := by
  have h := (invalid_method_400 [] ("FOO /x".data) ("/x".data) (by decide) (by decide)
    (by decide)
    (by simp [splitWs, splitChar, splitCharAux, isWs, dropMidEmpty, decodeURIComponentOpt])
    (by simp [splitWs, splitChar, splitCharAux, isWs, dropMidEmpty, methodOf])).1
  rw [h]
  have hfoo : ((splitWs ("FOO /x".data)).headD []).map Char.toUpper = "FOO".data := by
    simp [splitWs, splitChar, splitCharAux, isWs, dropMidEmpty]
  rw [hfoo]

/-- C4: a command that reaches a matched route with a nonempty body string
that does not parse as JSON is answered with status 400 and the invalid
JSON body error, whose wire line is exactly the 400 line with that error
object, and the handler is not dispatched (the outcome is the respond
constructor, never the dispatch constructor). -/
theorem invalid_body_400 (routes : List Route) (command route : List Char)
    (h1 : command ≠ []) (h2 : command ≠ "docs".data) (h3 : command ≠ "routes".data)
    (hdec : decodeURIComponentOpt ((splitWs command |>.drop 1).headD ['/']) = some route)
    (m : Method) (hm : methodOf (((splitWs command).headD []).map Char.toUpper) = some m)
    (rp : Route × List (List Char × List Char))
    (hscan : scanRoutes routes m (urlParse route).1 = some rp)
    (hbody : joinSp ((splitWs command).drop 2) ≠ [])
    (hbad : parseJson (joinSp ((splitWs command).drop 2)) = none) :
    handleCommand routes command = .respond 400 invalidJsonBody
    ∧ respWire 400 invalidJsonBody
        = ("400 \x7b\x22error\x22:\x22Invalid JSON body\x22\x7d").data := by
  have hres : ¬(command = [] ∨ command = "docs".data) := by
    intro h
    cases h with
    | inl h => exact h1 h
    | inr h => exact h2 h
  constructor
  · simp only [handleCommand, hres, if_false, h3, hdec, hm, hscan]
    simp [hbody, hbad]
  · simp [respWire, intDec, natDigits, digitChar, ser_obj, ser_str, serStr, escChar,
      invalidJsonBody, hexDigitLower, dquote, bslash, lbrace, rbrace, List.intercalate,
      List.intersperse]

/-- Witness for C4 at the command POST /x not-json against a registered
POST /x route. -/
theorem invalid_body_400_witness :
    handleCommand [mkRoute .POST "/x".data 0 none] ("POST /x not-json".data)
      = ServerOut.respond 400 invalidJsonBody :=
  (invalid_body_400 [mkRoute .POST "/x".data 0 none] ("POST /x not-json".data) ("/x".data)
    (by decide) (by decide) (by decide)
    (by simp [splitWs, splitChar, splitCharAux, isWs, dropMidEmpty, decodeURIComponentOpt])
    .POST
    (by simp [splitWs, splitChar, splitCharAux, isWs, dropMidEmpty, methodOf])
    (mkRoute .POST "/x".data 0 none, [])
    (by simp [urlParse, urlPathname, splitQuery, stripFragment, splitChar, splitCharAux,
      isSlashC, dotStack, isSingleDot, isDoubleDot, pctEncodeWith, pathSafeC,
      parseUrlencoded, fromEntries, scanRoutes, mkRoute, compilePat, isWordC, isDigitC,
      patMatch, tryGroup, bslash, lbrace, rbrace, dquote, List.intercalate])
    (by simp [splitWs, splitChar, splitCharAux, isWs, dropMidEmpty, joinSp,
      List.intercalate])
    (by simp [splitWs, splitChar, splitCharAux, isWs, dropMidEmpty, joinSp,
      List.intercalate, parseJson, pVal, skipWs, jsonWsC, pNum, isDigitC, spanDigits,
      pExp, dquote, lbrace, rbrace, bslash])).1

end Botport

namespace Botport

/-! ### Wire codec round trip (claim on encode and decode) -/

/-- JavaScript truthiness of a JSON value, the if (body) test of
makeRequest: null, false, zero, and the empty string are falsy. -/
def truthy : Json → Bool
  | .null => false
  | .bool b => b
  | .num m _ => m != 0
  | .str s => !s.isEmpty
  | .arr _ => true
  | .obj _ => true

/-- Request command the client builds after the addressing prefix (source
makeRequest, lines 369-377): the method keyword, one space, the
percent-encoded route, and, only when the body is truthy, one more space
and the stringified body. The addressing prefix itself is stripped and
trimmed away by the server's mention pattern before the command is
interpreted, so the command is the codec's content. -/
def clientEncodeCommand (m : Method) (route : List Char) (body : Json) : List Char :=
  methodStr m ++ ' ' :: encodeURIComponent route
    ++ (if truthy body then ' ' :: ser body else [])

/-- Request-decoding pipeline of handleMessage (source lines 245-271),
the same steps handleCommand performs around the route scan, with the scan
itself left out: whitespace split into method, raw route, and rejoined
body; percent-decode; method validation; URL parse; body parse. Returns
the method, pathname, query map, and body (null when the body string is
empty) that a dispatched handler would observe, or none when decoding
fails or a reserved command is given. -/
def serverDecode (command : List Char) : Option (Method × List Char × List (List Char × List Char) × Json) :=
  if command = [] ∨ command = "docs".data ∨ command = "routes".data then none
  else
    let parts := splitWs command
    let method := (parts.headD []).map Char.toUpper
    let rawRoute := (parts.drop 1).headD ['/']
    let bodyString := joinSp (parts.drop 2)
    match decodeURIComponentOpt rawRoute with
    | none => none
    | some route =>
      match methodOf method with
      | none => none
      | some m =>
        let pq := urlParse route
        if bodyString ≠ [] then
          match parseJson bodyString with
          | none => none
          | some b => some (m, pq.1, pq.2, b)
        else some (m, pq.1, pq.2, Json.null)

/-- Dispatching a command agrees with the decoding pipeline: when the
pipeline decodes a request and the scan matches its pathname, the server
invokes the handler with exactly the decoded pieces. -/
theorem serverDecode_handleCommand (routes : List Route) (command : List Char)
    (m : Method) (path : List Char) (q : List (List Char × List Char)) (b : Json)
    (rp : Route × List (List Char × List Char))
    (hdec : serverDecode command = some (m, path, q, b))
    (hscan : scanRoutes routes m path = some rp) :
    handleCommand routes command = .dispatch rp.1 rp.2 q b := by
  unfold serverDecode at hdec
  by_cases hres : command = [] ∨ command = "docs".data ∨ command = "routes".data
  · simp [hres] at hdec
  · rw [if_neg hres] at hdec
    have hres2 : ¬(command = [] ∨ command = "docs".data) := by
      intro h
      exact hres (by tauto)
    have hres3 : command ≠ "routes".data := by
      intro h
      exact hres (by tauto)
    unfold handleCommand
    rw [if_neg hres2, if_neg hres3]
    cases hdecu : decodeURIComponentOpt ((splitWs command |>.drop 1).headD ['/']) with
    | none =>
      simp only [hdecu] at hdec
      exact Option.noConfusion hdec
    | some route =>
      simp only [hdecu] at hdec ⊢
      cases hmo : methodOf (((splitWs command).headD []).map Char.toUpper) with
      | none =>
        simp only [hmo] at hdec
        exact Option.noConfusion hdec
      | some m' =>
        simp only [hmo] at hdec ⊢
        by_cases hbs : joinSp ((splitWs command).drop 2) = []
        · have hcond : ¬(joinSp ((splitWs command).drop 2) ≠ []) := by simp [hbs]
          rw [if_neg hcond] at hdec
          simp only [Option.some.injEq, Prod.mk.injEq] at hdec
          obtain ⟨hm', hpath, hq, hb'⟩ := hdec
          subst hm' hpath hq hb'
          simp only [hscan]
          rw [if_neg hcond]
        · have hcond : joinSp ((splitWs command).drop 2) ≠ [] := hbs
          rw [if_pos hcond] at hdec
          cases hpj : parseJson (joinSp ((splitWs command).drop 2)) with
          | none =>
            simp only [hpj] at hdec
            exact Option.noConfusion hdec
          | some b' =>
            simp only [hpj, Option.some.injEq, Prod.mk.injEq] at hdec
            obtain ⟨hm', hpath, hq, hb'⟩ := hdec
            subst hm' hpath hq hb'
            simp only [hscan]
            rw [if_pos hcond]

end Botport

namespace Botport

/-- Counterexample for C1 as stated universally: the codec round trip
fails on plain JSON-serializable inputs. A falsy body (false) is omitted
by the if (body) test and decodes as null; a body string containing two
consecutive spaces is collapsed by the whitespace split and single-space
rejoin; a path containing a space is percent-encoded by the URL parser, so
the decoded pathname differs from the original path. -/
theorem wire_roundtrip_counterexample :
    (serverDecode (clientEncodeCommand .GET ("/x".data) (.bool false))
        = some (.GET, "/x".data, [], Json.null)
      ∧ Json.null ≠ Json.bool false)
    ∧ (serverDecode (clientEncodeCommand .GET ("/x".data) (.str "a  b".data))
        = some (.GET, "/x".data, [], .str ("a b".data))
      ∧ Json.str ("a b".data) ≠ Json.str ("a  b".data))
    ∧ (serverDecode (clientEncodeCommand .GET ("/a b".data) Json.null)
        = some (.GET, "/a%20b".data, [], Json.null)
      ∧ ("/a%20b".data : List Char) ≠ "/a b".data) := by
  refine ⟨⟨?_, by simp⟩, ⟨?_, by simp⟩, ⟨?_, by simp⟩⟩ <;>
    simp [clientEncodeCommand, methodStr, truthy, encodeURIComponent, uriUnreservedC,
      utf8EncodeChar, pctOfByte, hexDigitUpper, squote, serverDecode, splitWs, splitChar,
      splitCharAux, isWs, dropMidEmpty, joinSp, List.intercalate, List.intersperse,
      decodeURIComponentOpt, pctByte, hexVal, methodOf, urlParse, urlPathname, splitQuery,
      stripFragment, isSlashC, dotStack, isSingleDot, isDoubleDot, pctEncodeWith,
      pathSafeC, parseUrlencoded, queryDecode, fromEntries, objUpsert, parseJson, pVal,
      pStrRest, unescOne, escMap, hex4, skipWs, jsonWsC, pNum, isDigitC, spanDigits,
      pExp, ser_str, serStr, escChar, dquote, bslash, lbrace, rbrace, isDigitC]

end Botport

namespace Botport

/-- Intercalate on an empty list of pieces. -/
theorem intercalate_nil' (sep : List α) : List.intercalate sep ([] : List (List α)) = [] := by
  simp [List.intercalate]

/-- Intercalate on one piece. -/
theorem intercalate_single (sep : List α) (x : List α) :
    List.intercalate sep [x] = x := by
  simp [List.intercalate]

/-- Intercalate on at least two pieces. -/
theorem intercalate_cons2 (sep : List α) (x y : List α) (ys : List (List α)) :
    List.intercalate sep (x :: y :: ys) = x ++ sep ++ List.intercalate sep (y :: ys) := by
  simp [List.intercalate, List.intersperse]

/-- A head element moves out of the first piece of an intercalation. -/
theorem intercalate_cons_head (sep : List α) (a : α) (h : List α) (t : List (List α)) :
    List.intercalate sep ((a :: h) :: t) = a :: List.intercalate sep (h :: t) := by
  cases t with
  | nil => rw [intercalate_single, intercalate_single]
  | cons y ys => rw [intercalate_cons2, intercalate_cons2]; simp

/-- The split never returns an empty piece list. -/
theorem splitCharAux_ne (p : Char → Bool) :
    ∀ (s acc : List Char), splitCharAux p s acc ≠ []
  | [], _ => by simp [splitCharAux]
  | c :: cs, acc => by
    rw [splitCharAux]
    split
    · simp
    · exact splitCharAux_ne p cs (c :: acc)

/-- Accumulator lemma: the accumulator only prefixes the first piece. -/
theorem splitCharAux_acc (p : Char → Bool) :
    ∀ (s acc : List Char),
      splitCharAux p s acc
        = (acc.reverse ++ (splitCharAux p s []).headD []) :: (splitCharAux p s []).tail
  | [], acc => by simp [splitCharAux]
  | c :: cs, acc => by
    by_cases hc : p c
    · rw [splitCharAux, if_pos hc, splitCharAux, if_pos hc]
      simp
    · rw [splitCharAux, if_neg hc, splitCharAux, if_neg hc]
      rw [splitCharAux_acc p cs (c :: acc), splitCharAux_acc p cs [c]]
      simp

/-- A separator-free run splits as a single piece continued by the
accumulator. -/
theorem splitCharAux_no_sep (p : Char → Bool) :
    ∀ (M : List Char), M.all (fun c => !p c) = true →
      ∀ (rest acc : List Char),
        splitCharAux p (M ++ rest) acc = splitCharAux p rest (M.reverse ++ acc)
  | [], _, rest, acc => by simp
  | c :: cs, hM, rest, acc => by
    simp only [List.all_cons, Bool.and_eq_true] at hM
    have hc : ¬ p c = true := by simpa using hM.1
    rw [List.cons_append, splitCharAux, if_neg hc, splitCharAux_no_sep p cs hM.2 rest]
    simp

/-- A separator-free string is one piece. -/
theorem splitChar_no_sep (p : Char → Bool) (M : List Char)
    (hM : M.all (fun c => !p c) = true) : splitChar p M = [M] := by
  have := splitCharAux_no_sep p M hM [] []
  simp only [List.append_nil] at this
  rw [splitChar, this]
  simp [splitCharAux]

/-- Splitting a string that starts with a separator-free run followed by a
separator peels the run off as the first piece. -/
theorem splitChar_run_sep (p : Char → Bool) (M : List Char)
    (hM : M.all (fun c => !p c) = true) (sep : Char) (hsep : p sep = true)
    (rest : List Char) :
    splitChar p (M ++ sep :: rest) = M :: splitChar p rest := by
  rw [splitChar, splitCharAux_no_sep p M hM (sep :: rest) [], splitCharAux, if_pos hsep]
  simp [splitChar]

/-- Rejoining a single-character split with the separator restores the
string, as long as every separator-class character in it is the separator
itself. -/
theorem splitChar_sep_rejoin (p : Char → Bool) (sep : Char) (hsep : p sep = true) :
    ∀ (s : List Char), (∀ c ∈ s, p c = (c == sep)) →
      List.intercalate [sep] (splitChar p s) = s
  | [], _ => by simp [splitChar, splitCharAux, intercalate_single]
  | c :: cs, h => by
    have hcs : ∀ x ∈ cs, p x = (x == sep) := fun x hx => h x (by simp [hx])
    by_cases hc : p c
    · have hceq : c = sep := by
        have := h c (by simp)
        rw [hc] at this
        simpa using this.symm
      rw [splitChar, splitCharAux, if_pos hc]
      have hne := splitCharAux_ne p cs []
      cases hsc : splitCharAux p cs [] with
      | nil => exact absurd hsc hne
      | cons h0 t0 =>
        have : List.intercalate [sep] (([] : List Char) :: h0 :: t0)
            = sep :: List.intercalate [sep] (h0 :: t0) := by
          rw [intercalate_cons2]
          simp
        simp only [List.reverse_nil]
        rw [this]
        have := splitChar_sep_rejoin p sep hsep cs hcs
        rw [splitChar, hsc] at this
        rw [this, hceq]
    · rw [splitChar, splitCharAux, if_neg hc, splitCharAux_acc p cs [c]]
      have hne := splitCharAux_ne p cs []
      cases hsc : splitCharAux p cs [] with
      | nil => exact absurd hsc hne
      | cons h0 t0 =>
        simp only [List.headD_cons, List.tail_cons, List.reverse_cons, List.reverse_nil,
          List.nil_append, List.singleton_append]
        rw [intercalate_cons_head]
        have := splitChar_sep_rejoin p sep hsep cs hcs
        rw [splitChar, hsc] at this
        rw [this]

end Botport

namespace Botport

/-- No two adjacent separator-class characters. -/
def noTwoAdj (p : Char → Bool) : List Char → Bool
  | c :: d :: rest => !(p c && p d) && noTwoAdj p (d :: rest)
  | _ => true

/-- A string whose single-character split pieces are all nonempty: it does
not start or end with a separator and has no two adjacent separators. -/
def joinSafe (p : Char → Bool) (s : List Char) : Bool :=
  (match s with | [] => true | c :: _ => !p c)
  && (match s.getLast? with | none => true | some c => !p c)
  && noTwoAdj p s

/-- A nonempty serialized body the command round trip can carry: its split
pieces are nonempty and every whitespace character in it is a plain
space. -/
def bodyJoinable (s : List Char) : Bool :=
  !s.isEmpty && joinSafe isWs s && s.all (fun c => !isWs c || c == ' ')

/-- All pieces of the split of a join-safe string are nonempty. -/
theorem splitChar_pieces_ne (p : Char → Bool) :
    ∀ (B : List Char), joinSafe p B = true → B ≠ [] →
      ∀ x ∈ splitChar p B, x ≠ []
  | [], _, hne => absurd rfl hne
  | [c], hj, _ => by
    simp only [joinSafe, Bool.and_eq_true] at hj
    have hc : ¬ p c = true := by
      have := hj.1.1
      simpa using this
    intro x hx
    rw [splitChar, splitCharAux, if_neg hc] at hx
    simp [splitCharAux] at hx
    simp [hx]
  | c :: d :: rest, hj, _ => by
    simp only [joinSafe, Bool.and_eq_true] at hj
    have hc : ¬ p c = true := by simpa using hj.1.1
    have hadj := hj.2
    rw [noTwoAdj, Bool.and_eq_true] at hadj
    intro x hx
    by_cases hd : p d
    · -- separator after the first character: the first piece is the head
      have hrest_ne : rest ≠ [] := by
        intro hr
        subst hr
        have := hj.1.2
        simp [List.getLast?, hd] at this
      have hj' : joinSafe p rest = true := by
        simp only [joinSafe, Bool.and_eq_true]
        refine ⟨⟨?_, ?_⟩, ?_⟩
        · cases rest with
          | nil => simp
          | cons e es =>
            have := hadj.2
            rw [noTwoAdj, Bool.and_eq_true] at this
            have h2 := this.1
            simp [hd] at h2
            simp [h2]
        · have := hj.1.2
          cases rest with
          | nil => simp
          | cons e es => simpa [List.getLast?_cons_cons] using this
        · cases rest with
          | nil => rfl
          | cons e es =>
            have := hadj.2
            rw [noTwoAdj, Bool.and_eq_true] at this
            exact this.2
      rw [splitChar, splitCharAux, if_neg hc, splitCharAux, if_pos hd] at hx
      simp only [List.reverse_cons, List.reverse_nil, List.nil_append,
        List.singleton_append] at hx
      cases hx with
      | head => simp
      | tail _ hx => exact splitChar_pieces_ne p rest hj' hrest_ne x hx
    · -- no separator: the first character joins the first piece of the tail
      have hj' : joinSafe p (d :: rest) = true := by
        simp only [joinSafe, Bool.and_eq_true]
        refine ⟨⟨by simpa using hd, ?_⟩, hadj.2⟩
        have := hj.1.2
        simpa [List.getLast?_cons_cons] using this
      rw [splitChar, splitCharAux, if_neg hc, splitCharAux_acc p (d :: rest) [c]] at hx
      have hne := splitCharAux_ne p (d :: rest) []
      cases hsc : splitCharAux p (d :: rest) [] with
      | nil => exact absurd hsc hne
      | cons h0 t0 =>
        rw [hsc] at hx
        simp only [List.headD_cons, List.tail_cons] at hx
        cases hx with
        | head => simp
        | tail _ hx =>
          have := splitChar_pieces_ne p (d :: rest) hj' (by simp)
          rw [splitChar, hsc] at this
          exact this x (List.mem_cons_of_mem _ hx)

/-- The empty-piece filter is the identity on lists of nonempty pieces. -/
theorem dropMidEmpty_id : ∀ (l : List (List Char)), (∀ x ∈ l, x ≠ []) →
    dropMidEmpty l = l
  | [], _ => rfl
  | [x], _ => rfl
  | x :: y :: t, h => by
    have hx : ¬ x.isEmpty = true := by
      have := h x (by simp)
      simpa [List.isEmpty_iff] using this
    rw [dropMidEmpty, if_neg hx]
    rw [dropMidEmpty_id (y :: t) (fun z hz => h z (by simp at hz ⊢; tauto))]

end Botport

namespace Botport

/-- Splitting a two-token command on whitespace. -/
theorem splitWs_two (M R : List Char)
    (hM : M.all (fun c => !isWs c) = true)
    (hR : R.all (fun c => !isWs c) = true) :
    splitWs (M ++ ' ' :: R) = [M, R] := by
  rw [splitWs, splitChar_run_sep isWs M hM ' ' (by decide) R, splitChar_no_sep isWs R hR]
  rfl

/-- Splitting a three-part command on whitespace: the body part splits
into its own pieces, none of which is dropped when the body is
join-safe. -/
theorem splitWs_three (M R B : List Char)
    (hM : M.all (fun c => !isWs c) = true)
    (hR : R.all (fun c => !isWs c) = true) (hRne : R ≠ [])
    (hB : joinSafe isWs B = true) (hBne : B ≠ []) :
    splitWs (M ++ ' ' :: R ++ ' ' :: B) = M :: R :: splitChar isWs B := by
  rw [show (M ++ ' ' :: R ++ ' ' :: B) = M ++ ' ' :: (R ++ ' ' :: B) from by simp]
  rw [splitWs, splitChar_run_sep isWs M hM ' ' (by decide) (R ++ ' ' :: B),
    splitChar_run_sep isWs R hR ' ' (by decide) B]
  have hall : ∀ x ∈ R :: splitChar isWs B, x ≠ [] := by
    intro x hx
    cases hx with
    | head => exact hRne
    | tail _ hx => exact splitChar_pieces_ne isWs B hB hBne x hx
  simp only []
  rw [dropMidEmpty_id _ hall]

/-- Rejoining the body pieces of a join-safe body whose whitespace is all
plain spaces restores the body. -/
theorem joinSp_body (B : List Char)
    (hsp : B.all (fun c => !isWs c || c == ' ') = true) :
    joinSp (splitChar isWs B) = B := by
  rw [joinSp]
  apply splitChar_sep_rejoin isWs ' ' (by decide)
  intro c hc
  simp only [List.all_eq_true] at hsp
  have := hsp c hc
  by_cases hw : isWs c
  · rw [hw]
    simp [hw] at this
    simp [this]
  · rw [show isWs c = false from by simpa using hw]
    have : ¬ c = ' ' := by
      intro h
      subst h
      simp [isWs] at hw
    simp [this]

end Botport

namespace Botport

/-- A character is valid scalar data. -/
theorem char_valid_nat (c : Char) :
    c.toNat < 0xD800 ∨ (0xDFFF < c.toNat ∧ c.toNat < 0x110000) := c.valid

/-- Scalar to character and back. -/
theorem toNat_ofNat_valid {n : Nat}
    (h : n < 0xD800 ∨ (0xDFFF < n ∧ n < 0x110000)) : (Char.ofNat n).toNat = n := by
  unfold Char.ofNat
  rw [dif_pos h]
  rfl

/-- Reading back an uppercase hex digit. -/
theorem hexVal_upper (x : Nat) (h : x < 16) : hexVal (hexDigitUpper x) = some x := by
  unfold hexDigitUpper hexVal
  by_cases h10 : x < 10
  · rw [if_pos h10]
    have ht : (Char.ofNat (48 + x)).toNat = 48 + x := toNat_ofNat_valid (by omega)
    rw [if_pos (by simp [ht]; omega)]
    rw [ht]
    congr 1
    omega
  · rw [if_neg h10]
    have ht : (Char.ofNat (55 + x)).toNat = 55 + x := toNat_ofNat_valid (by omega)
    rw [if_neg (by simp [ht]; omega), if_neg (by simp [ht]; omega),
      if_pos (by simp [ht]; omega)]
    rw [ht]
    congr 1
    omega

/-- Reading back a percent-encoded byte. -/
theorem pctByte_enc (b : Nat) (hb : b < 256) (r : List Char) :
    pctByte (pctOfByte b ++ r) = some (b, r) := by
  show pctByte ('%' :: hexDigitUpper (b / 16) :: hexDigitUpper (b % 16) :: r) = some (b, r)
  rw [pctByte]
  rw [hexVal_upper (b / 16) (by omega), hexVal_upper (b % 16) (by omega)]
  simp only [if_pos]
  have hbb : b / 16 * 16 + b % 16 = b := by omega
  simp [hbb]

/-- Decoding a plain character passes it through. -/
theorem dec_pass (c : Char) (hc : (c == '%') = false) (rest : List Char) :
    decodeURIComponentOpt (c :: rest)
      = Option.map (fun out => c :: out) (decodeURIComponentOpt rest) := by
  rw [decodeURIComponentOpt]
  rw [if_neg (by simp [hc] : ¬ (c == '%') = true)]
  cases decodeURIComponentOpt rest <;> rfl

/-- Decoding one percent-escaped ASCII byte. -/
theorem dec_b1 (b : Nat) (hb : b < 0x80) (rest : List Char) :
    decodeURIComponentOpt (pctOfByte b ++ rest)
      = Option.map (fun out => Char.ofNat b :: out) (decodeURIComponentOpt rest) := by
  show decodeURIComponentOpt ('%' :: hexDigitUpper (b / 16) :: hexDigitUpper (b % 16) :: rest)
      = _
  rw [decodeURIComponentOpt]
  rw [if_pos (by simp)]
  have hp := pctByte_enc b (by omega) rest
  simp only [pctOfByte, List.cons_append, List.nil_append] at hp
  split
  next heq =>
    rw [hp] at heq
    exact Option.noConfusion heq
  next b1 rest1 heq =>
    rw [hp] at heq
    simp only [Option.some.injEq, Prod.mk.injEq] at heq
    obtain ⟨rfl, rfl⟩ := heq
    rw [if_pos hb]
    cases decodeURIComponentOpt rest <;> rfl

/-- Decoding a two-byte UTF-8 percent-escape sequence. -/
theorem dec_b2 (b1 b2 : Nat) (h1 : 0xC2 ≤ b1 ∧ b1 ≤ 0xDF) (h2 : isCont b2 = true)
    (rest : List Char) :
    decodeURIComponentOpt (pctOfByte b1 ++ (pctOfByte b2 ++ rest))
      = Option.map (fun out => Char.ofNat ((b1 - 0xC0) * 64 + (b2 - 0x80)) :: out)
          (decodeURIComponentOpt rest) := by
  have hc2 : 0x80 ≤ b2 ∧ b2 ≤ 0xBF := by
    simp [isCont] at h2
    omega
  show decodeURIComponentOpt
      ('%' :: hexDigitUpper (b1 / 16) :: hexDigitUpper (b1 % 16) :: (pctOfByte b2 ++ rest))
      = _
  rw [decodeURIComponentOpt]
  rw [if_pos (by simp)]
  have hp1 := pctByte_enc b1 (by omega) (pctOfByte b2 ++ rest)
  simp only [pctOfByte, List.cons_append, List.nil_append] at hp1
  have hp2 := pctByte_enc b2 (by omega) rest
  simp only [pctOfByte, List.cons_append, List.nil_append] at hp2
  split
  next heq =>
    simp only [pctOfByte, List.cons_append, List.nil_append] at heq
    rw [hp1] at heq
    exact Option.noConfusion heq
  next c1 rest1 heq =>
    simp only [pctOfByte, List.cons_append, List.nil_append] at heq
    rw [hp1] at heq
    simp only [Option.some.injEq, Prod.mk.injEq] at heq
    obtain ⟨rfl, rfl⟩ := heq
    rw [if_neg (by omega),
      if_pos (by simp only [Bool.and_eq_true, decide_eq_true_eq]; omega)]
    split
    next heq2 =>
      rw [hp2] at heq2
      exact Option.noConfusion heq2
    next c2 rest2 heq2 =>
      rw [hp2] at heq2
      simp only [Option.some.injEq, Prod.mk.injEq] at heq2
      obtain ⟨rfl, rfl⟩ := heq2
      rw [if_pos h2]
      cases decodeURIComponentOpt rest <;> rfl

/-- Decoding a three-byte UTF-8 percent-escape sequence. -/
theorem dec_b3 (b1 b2 b3 : Nat) (h1 : 0xE0 ≤ b1 ∧ b1 ≤ 0xEF) (h2 : cont3Ok b1 b2 = true)
    (h2r : 0x80 ≤ b2 ∧ b2 ≤ 0xBF) (h3 : isCont b3 = true) (rest : List Char) :
    decodeURIComponentOpt (pctOfByte b1 ++ (pctOfByte b2 ++ (pctOfByte b3 ++ rest)))
      = Option.map
          (fun out => Char.ofNat ((b1 - 0xE0) * 4096 + (b2 - 0x80) * 64 + (b3 - 0x80)) :: out)
          (decodeURIComponentOpt rest) := by
  have hc3 : 0x80 ≤ b3 ∧ b3 ≤ 0xBF := by
    simp [isCont] at h3
    omega
  show decodeURIComponentOpt
      ('%' :: hexDigitUpper (b1 / 16) :: hexDigitUpper (b1 % 16)
        :: (pctOfByte b2 ++ (pctOfByte b3 ++ rest))) = _
  rw [decodeURIComponentOpt]
  rw [if_pos (by simp)]
  have hp1 := pctByte_enc b1 (by omega) (pctOfByte b2 ++ (pctOfByte b3 ++ rest))
  simp only [pctOfByte, List.cons_append, List.nil_append] at hp1
  have hp2 := pctByte_enc b2 (by omega) (pctOfByte b3 ++ rest)
  simp only [pctOfByte, List.cons_append, List.nil_append] at hp2
  have hp3 := pctByte_enc b3 (by omega) rest
  simp only [pctOfByte, List.cons_append, List.nil_append] at hp3
  split
  next heq =>
    simp only [pctOfByte, List.cons_append, List.nil_append] at heq
    rw [hp1] at heq
    exact Option.noConfusion heq
  next c1 rest1 heq =>
    simp only [pctOfByte, List.cons_append, List.nil_append] at heq
    rw [hp1] at heq
    simp only [Option.some.injEq, Prod.mk.injEq] at heq
    obtain ⟨rfl, rfl⟩ := heq
    rw [if_neg (by omega),
      if_neg (by simp only [Bool.and_eq_true, decide_eq_true_eq]; omega),
      if_pos (by simp only [Bool.and_eq_true, decide_eq_true_eq]; omega)]
    split
    next heq2 =>
      rw [hp2] at heq2
      exact Option.noConfusion heq2
    next c2 rest2 heq2 =>
      rw [hp2] at heq2
      simp only [Option.some.injEq, Prod.mk.injEq] at heq2
      obtain ⟨rfl, rfl⟩ := heq2
      split
      next heq3 =>
        rw [hp3] at heq3
        exact Option.noConfusion heq3
      next c3 rest3 heq3 =>
        rw [hp3] at heq3
        simp only [Option.some.injEq, Prod.mk.injEq] at heq3
        obtain ⟨rfl, rfl⟩ := heq3
        rw [if_pos (by simp [h2, h3])]
        cases decodeURIComponentOpt rest <;> rfl

/-- Decoding a four-byte UTF-8 percent-escape sequence. -/
theorem dec_b4 (b1 b2 b3 b4 : Nat) (h1 : 0xF0 ≤ b1 ∧ b1 ≤ 0xF4) (h2 : cont4Ok b1 b2 = true)
    (h2r : 0x80 ≤ b2 ∧ b2 ≤ 0xBF) (h3 : isCont b3 = true) (h4 : isCont b4 = true)
    (rest : List Char) :
    decodeURIComponentOpt
        (pctOfByte b1 ++ (pctOfByte b2 ++ (pctOfByte b3 ++ (pctOfByte b4 ++ rest))))
      = Option.map
          (fun out => Char.ofNat ((b1 - 0xF0) * 262144 + (b2 - 0x80) * 4096
            + (b3 - 0x80) * 64 + (b4 - 0x80)) :: out)
          (decodeURIComponentOpt rest) := by
  have hc3 : 0x80 ≤ b3 ∧ b3 ≤ 0xBF := by
    simp [isCont] at h3
    omega
  have hc4 : 0x80 ≤ b4 ∧ b4 ≤ 0xBF := by
    simp [isCont] at h4
    omega
  show decodeURIComponentOpt
      ('%' :: hexDigitUpper (b1 / 16) :: hexDigitUpper (b1 % 16)
        :: (pctOfByte b2 ++ (pctOfByte b3 ++ (pctOfByte b4 ++ rest)))) = _
  rw [decodeURIComponentOpt]
  rw [if_pos (by simp)]
  have hp1 := pctByte_enc b1 (by omega)
    (pctOfByte b2 ++ (pctOfByte b3 ++ (pctOfByte b4 ++ rest)))
  simp only [pctOfByte, List.cons_append, List.nil_append] at hp1
  have hp2 := pctByte_enc b2 (by omega) (pctOfByte b3 ++ (pctOfByte b4 ++ rest))
  simp only [pctOfByte, List.cons_append, List.nil_append] at hp2
  have hp3 := pctByte_enc b3 (by omega) (pctOfByte b4 ++ rest)
  simp only [pctOfByte, List.cons_append, List.nil_append] at hp3
  have hp4 := pctByte_enc b4 (by omega) rest
  simp only [pctOfByte, List.cons_append, List.nil_append] at hp4
  split
  next heq =>
    simp only [pctOfByte, List.cons_append, List.nil_append] at heq
    rw [hp1] at heq
    exact Option.noConfusion heq
  next c1 rest1 heq =>
    simp only [pctOfByte, List.cons_append, List.nil_append] at heq
    rw [hp1] at heq
    simp only [Option.some.injEq, Prod.mk.injEq] at heq
    obtain ⟨rfl, rfl⟩ := heq
    rw [if_neg (by omega),
      if_neg (by simp only [Bool.and_eq_true, decide_eq_true_eq]; omega),
      if_neg (by simp only [Bool.and_eq_true, decide_eq_true_eq]; omega),
      if_pos (by simp only [Bool.and_eq_true, decide_eq_true_eq]; omega)]
    split
    next heq2 =>
      rw [hp2] at heq2
      exact Option.noConfusion heq2
    next c2 rest2 heq2 =>
      rw [hp2] at heq2
      simp only [Option.some.injEq, Prod.mk.injEq] at heq2
      obtain ⟨rfl, rfl⟩ := heq2
      split
      next heq3 =>
        rw [hp3] at heq3
        exact Option.noConfusion heq3
      next c3 rest3 heq3 =>
        rw [hp3] at heq3
        simp only [Option.some.injEq, Prod.mk.injEq] at heq3
        obtain ⟨rfl, rfl⟩ := heq3
        split
        next heq4 =>
          rw [hp4] at heq4
          exact Option.noConfusion heq4
        next c4 rest4 heq4 =>
          rw [hp4] at heq4
          simp only [Option.some.injEq, Prod.mk.injEq] at heq4
          obtain ⟨rfl, rfl⟩ := heq4
          rw [if_pos (by simp [h2, h3, h4])]
          cases decodeURIComponentOpt rest <;> rfl

end Botport

namespace Botport

/-- Decoding the encoding of one character peels it off. -/
theorem dec_enc_char (c : Char) (rest out : List Char)
    (ih : decodeURIComponentOpt rest = some out) :
    decodeURIComponentOpt ((if uriUnreservedC c then [c]
      else ((utf8EncodeChar c).map pctOfByte).flatten) ++ rest) = some (c :: out) := by
  by_cases hu : uriUnreservedC c
  · rw [if_pos hu, List.singleton_append]
    have hc : (c == '%') = false := by
      by_cases h : c = '%'
      · subst h
        exact absurd hu (by decide)
      · simp [h]
    rw [dec_pass c hc rest, ih]
    rfl
  · rw [if_neg hu]
    have hv := char_valid_nat c
    by_cases h80 : c.toNat < 0x80
    · rw [show utf8EncodeChar c = [c.toNat] from by unfold utf8EncodeChar; rw [if_pos h80]]
      simp only [List.map_cons, List.map_nil, List.flatten_cons, List.flatten_nil,
        List.append_nil]
      rw [dec_b1 _ h80 rest, ih]
      simp [Char.ofNat_toNat]
    · by_cases h800 : c.toNat < 0x800
      · rw [show utf8EncodeChar c = [0xC0 + c.toNat / 64, 0x80 + c.toNat % 64] from by
          unfold utf8EncodeChar; rw [if_neg h80, if_pos h800]]
        simp only [List.map_cons, List.map_nil, List.flatten_cons, List.flatten_nil,
          List.append_nil, List.append_assoc]
        rw [dec_b2 _ _ ⟨by omega, by omega⟩
          (by simp only [isCont, Bool.and_eq_true, decide_eq_true_eq]; omega) rest, ih]
        rw [show (0xC0 + c.toNat / 64 - 0xC0) * 64 + (0x80 + c.toNat % 64 - 0x80)
            = c.toNat from by omega]
        rw [Char.ofNat_toNat]
        rfl
      · by_cases h10000 : c.toNat < 0x10000
        · rw [show utf8EncodeChar c
              = [0xE0 + c.toNat / 4096, 0x80 + (c.toNat / 64) % 64, 0x80 + c.toNat % 64]
            from by unfold utf8EncodeChar; rw [if_neg h80, if_neg h800, if_pos h10000]]
          simp only [List.map_cons, List.map_nil, List.flatten_cons, List.flatten_nil,
            List.append_nil, List.append_assoc]
          have h2 : cont3Ok (0xE0 + c.toNat / 4096) (0x80 + (c.toNat / 64) % 64) = true := by
            simp only [cont3Ok, isCont]
            split_ifs with hA hB
            · simp only [beq_iff_eq] at hA
              simp only [Bool.and_eq_true, decide_eq_true_eq]
              omega
            · simp only [beq_iff_eq] at hB
              simp only [Bool.and_eq_true, decide_eq_true_eq]
              rcases hv with h | h <;> omega
            · simp only [Bool.and_eq_true, decide_eq_true_eq]
              omega
          rw [dec_b3 _ _ _ ⟨by omega, by omega⟩ h2 ⟨by omega, by omega⟩
            (by simp only [isCont, Bool.and_eq_true, decide_eq_true_eq]; omega) rest, ih]
          rw [show (0xE0 + c.toNat / 4096 - 0xE0) * 4096
              + (0x80 + (c.toNat / 64) % 64 - 0x80) * 64 + (0x80 + c.toNat % 64 - 0x80)
              = c.toNat from by omega]
          rw [Char.ofNat_toNat]
          rfl
        · have hlt : c.toNat < 0x110000 := by
            rcases hv with h | h
            · omega
            · exact h.2
          rw [show utf8EncodeChar c
              = [0xF0 + c.toNat / 262144, 0x80 + (c.toNat / 4096) % 64,
                 0x80 + (c.toNat / 64) % 64, 0x80 + c.toNat % 64]
            from by unfold utf8EncodeChar; rw [if_neg h80, if_neg h800, if_neg h10000]]
          simp only [List.map_cons, List.map_nil, List.flatten_cons, List.flatten_nil,
            List.append_nil, List.append_assoc]
          have h2 : cont4Ok (0xF0 + c.toNat / 262144) (0x80 + (c.toNat / 4096) % 64)
              = true := by
            simp only [cont4Ok, isCont]
            split_ifs with hA hB
            · simp only [beq_iff_eq] at hA
              simp only [Bool.and_eq_true, decide_eq_true_eq]
              omega
            · simp only [beq_iff_eq] at hB
              simp only [Bool.and_eq_true, decide_eq_true_eq]
              omega
            · simp only [Bool.and_eq_true, decide_eq_true_eq]
              omega
          rw [dec_b4 _ _ _ _ ⟨by omega, by omega⟩ h2 ⟨by omega, by omega⟩
            (by simp only [isCont, Bool.and_eq_true, decide_eq_true_eq]; omega)
            (by simp only [isCont, Bool.and_eq_true, decide_eq_true_eq]; omega) rest, ih]
          rw [show (0xF0 + c.toNat / 262144 - 0xF0) * 262144
              + (0x80 + (c.toNat / 4096) % 64 - 0x80) * 4096
              + (0x80 + (c.toNat / 64) % 64 - 0x80) * 64 + (0x80 + c.toNat % 64 - 0x80)
              = c.toNat from by omega]
          rw [Char.ofNat_toNat]
          rfl

/-- Decoding an encoded string before a decodable tail. -/
theorem dec_enc_append (s : List Char) :
    ∀ (t out : List Char), decodeURIComponentOpt t = some out →
      decodeURIComponentOpt (encodeURIComponent s ++ t) = some (s ++ out) := by
  induction s with
  | nil =>
    intro t out ht
    simpa [encodeURIComponent] using ht
  | cons c cs ih =>
    intro t out ht
    rw [show encodeURIComponent (c :: cs)
        = (if uriUnreservedC c then [c] else ((utf8EncodeChar c).map pctOfByte).flatten)
          ++ encodeURIComponent cs from by simp [encodeURIComponent]]
    rw [List.append_assoc, dec_enc_char c _ (cs ++ out) (ih _ out ht)]
    simp

/-- Model of the decodeURIComponent-of-encodeURIComponent identity. -/
theorem decode_encode (s : List Char) :
    decodeURIComponentOpt (encodeURIComponent s) = some s := by
  have h0 : decodeURIComponentOpt [] = some [] := by rw [decodeURIComponentOpt]
  have := dec_enc_append s [] [] h0
  simpa using this

end Botport


namespace Botport

/-- Characters of a canonical path segment: kept verbatim by the URL
parser, not a percent sign (percent forms could reassemble into dot
segments or escapes), not a backslash (a segment separator). -/
def pathCanonC (c : Char) : Bool := pathSafeC c && !(c == '%') && !(c == bslash)

/-- Canonical path: rooted at a single slash (a second slash or a
backslash would name an authority), every character a slash or canonical,
and no dot segments. -/
def PathCanon (p : List Char) : Bool :=
  match p with
  | [] => false
  | c :: rest =>
    c == '/'
    && (match rest with | [] => true | d :: _ => !(d == '/') && !(d == bslash))
    && rest.all (fun x => x == '/' || pathCanonC x)
    && (splitChar (fun x => x == '/') rest).all
        (fun seg => !(isSingleDot seg) && !(isDoubleDot seg))

/-- Canonical query: free of whitespace (which would break the command
split) and of the hash that would start a fragment. -/
def QueryCanon (q : List Char) : Bool := q.all (fun c => !(isWs c) && !(c == '#'))

/-- A path-safe character is neither the hash nor the question mark. -/
theorem pathSafe_facts (c : Char) (h : pathSafeC c = true) :
    (c == '#') = false ∧ (c == '?') = false := by
  simp only [pathSafeC, Bool.and_eq_true, Bool.not_eq_true'] at h
  exact ⟨by tauto, by tauto⟩

/-- Unpack the canonical-segment character predicate. -/
theorem pathCanonC_parts (c : Char) (h : pathCanonC c = true) :
    pathSafeC c = true ∧ (c == bslash) = false := by
  simp only [pathCanonC, Bool.and_eq_true, Bool.not_eq_true'] at h
  exact ⟨h.1.1, h.2⟩

/-- A list all of whose elements satisfy the predicate is its own
takeWhile. -/
theorem takeWhile_all_id (p : α → Bool) :
    ∀ (l : List α), l.all p = true → l.takeWhile p = l
  | [], _ => rfl
  | a :: l, h => by
    simp only [List.all_cons, Bool.and_eq_true] at h
    rw [List.takeWhile_cons, if_pos h.1, takeWhile_all_id p l h.2]

/-- Splits agree when the predicates agree on the string. -/
theorem splitCharAux_congr (p q : Char → Bool) :
    ∀ (s : List Char), (∀ c ∈ s, p c = q c) → ∀ acc,
      splitCharAux p s acc = splitCharAux q s acc
  | [], _, acc => rfl
  | c :: cs, h, acc => by
    have hc := h c (by simp)
    have hcs : ∀ x ∈ cs, p x = q x := fun x hx => h x (by simp [hx])
    rw [splitCharAux, splitCharAux, ← hc]
    by_cases hpc : p c
    · rw [if_pos hpc, if_pos hpc, splitCharAux_congr p q cs hcs []]
    · rw [if_neg hpc, if_neg hpc, splitCharAux_congr p q cs hcs (c :: acc)]

/-- Splits agree when the predicates agree on the string. -/
theorem splitChar_congr (p q : Char → Bool) (s : List Char)
    (h : ∀ c ∈ s, p c = q c) : splitChar p s = splitChar q s :=
  splitCharAux_congr p q s h []

/-- Characters of split pieces come from the string or the seed
accumulator and, when from the string, are never separators. -/
theorem splitCharAux_chars (p : Char → Bool) :
    ∀ (s acc : List Char), ∀ x ∈ splitCharAux p s acc, ∀ c ∈ x,
      (c ∈ s ∧ p c = false) ∨ c ∈ acc
  | [], acc, x, hx, c, hc => by
    simp [splitCharAux] at hx
    subst hx
    right
    simpa using hc
  | d :: cs, acc, x, hx, c, hc => by
    rw [splitCharAux] at hx
    by_cases hd : p d
    · rw [if_pos hd] at hx
      cases hx with
      | head =>
        right
        simpa using hc
      | tail _ hx =>
        rcases splitCharAux_chars p cs [] x hx c hc with ⟨h1, h2⟩ | h1
        · exact Or.inl ⟨by simp [h1], h2⟩
        · simp at h1
    · rw [if_neg hd] at hx
      rcases splitCharAux_chars p cs (d :: acc) x hx c hc with ⟨h1, h2⟩ | h1
      · exact Or.inl ⟨by simp [h1], h2⟩
      · rcases List.mem_cons.mp h1 with h2 | h2
        · subst h2
          exact Or.inl ⟨by simp, by simpa using hd⟩
        · exact Or.inr h2

/-- Characters of split pieces come from the string and are never
separators. -/
theorem splitChar_chars (p : Char → Bool) (s : List Char) :
    ∀ x ∈ splitChar p s, ∀ c ∈ x, c ∈ s ∧ p c = false := by
  intro x hx c hc
  rcases splitCharAux_chars p s [] x hx c hc with h | h
  · exact h
  · simp at h

/-- With no dot segments the collapsing walk appends everything. -/
theorem dotStack_no_dots :
    ∀ (l : List (List Char)),
      (∀ seg ∈ l, isSingleDot seg = false ∧ isDoubleDot seg = false) →
      ∀ acc, dotStack acc l = acc ++ l
  | [], _, acc => by simp [dotStack]
  | seg :: rest, h, acc => by
    have hseg := h seg (by simp)
    rw [dotStack, if_neg (by simp [hseg.2]), if_neg (by simp [hseg.1])]
    rw [dotStack_no_dots rest (fun x hx => h x (by simp [hx])) (acc ++ [seg])]
    simp

/-- Mapping a function that fixes every element is the identity. -/
theorem map_self_of (f : α → α) :
    ∀ (l : List α), (∀ x ∈ l, f x = x) → l.map f = l
  | [], _ => rfl
  | a :: l, h => by
    rw [List.map_cons, h a (by simp), map_self_of f l (fun x hx => h x (by simp [hx]))]

/-- Percent-encoding is the identity on safe strings. -/
theorem pctEncodeWith_id (safe : Char → Bool) :
    ∀ (s : List Char), s.all safe = true → pctEncodeWith safe s = s
  | [], _ => rfl
  | c :: cs, h => by
    simp only [List.all_cons, Bool.and_eq_true] at h
    have ih := pctEncodeWith_id safe cs h.2
    simp only [pctEncodeWith] at ih ⊢
    rw [List.map_cons, List.flatten_cons, if_pos h.1, ih]
    rfl

/-- The URL parse of a canonical path followed by an optional canonical
query returns the path verbatim and the form-urlencoded query map. -/
theorem urlParse_canon (p q : List Char) (hp : PathCanon p = true)
    (hq : QueryCanon q = true) :
    urlParse (p ++ (if q.isEmpty then [] else '?' :: q))
      = (p, fromEntries (parseUrlencoded q)) := by
  cases p with
  | nil => simp [PathCanon] at hp
  | cons c rest =>
    simp only [PathCanon, Bool.and_eq_true] at hp
    obtain ⟨⟨⟨hc, _⟩, hchars⟩, hdots⟩ := hp
    have hc' : c = '/' := by simpa using hc
    subst hc'
    simp only [List.all_eq_true] at hchars
    simp only [QueryCanon, List.all_eq_true, Bool.and_eq_true, Bool.not_eq_true'] at hq
    have hsafe : ∀ x ∈ rest, x = '/' ∨ (pathSafeC x = true ∧ (x == bslash) = false) := by
      intro x hx
      rcases (Bool.or_eq_true _ _).mp (hchars x hx) with h | h
      · exact Or.inl (by simpa using h)
      · exact Or.inr (pathCanonC_parts x h)
    have hhash : (('/' :: rest) ++ (if q.isEmpty then [] else '?' :: q)).all
        (fun c => c != '#') = true := by
      rw [List.all_eq_true]
      intro x hx
      rcases List.mem_append.mp hx with hx | hx
      · rcases List.mem_cons.mp hx with hx | hx
        · subst hx
          decide
        · rcases hsafe x hx with h | ⟨h, _⟩
          · subst h
            decide
          · have := (pathSafe_facts x h).1
            simp [bne, this]
      · by_cases hqe : q.isEmpty
        · rw [if_pos hqe] at hx
          simp at hx
        · rw [if_neg hqe] at hx
          rcases List.mem_cons.mp hx with hx | hx
          · subst hx
            decide
          · have := (hq x hx).2
            simp [bne, this]
    have hqmark : ('/' :: rest).all (fun c => c != '?') = true := by
      rw [List.all_eq_true]
      intro x hx
      rcases List.mem_cons.mp hx with hx | hx
      · subst hx
        decide
      · rcases hsafe x hx with h | ⟨h, _⟩
        · subst h
          decide
        · have := (pathSafe_facts x h).2
          simp [bne, this]
    have hhd : ∀ c, (if q.isEmpty then ([] : List Char) else '?' :: q).head? = some c →
        (c != '?') = false := by
      intro c hc
      by_cases hqe : q.isEmpty
      · rw [if_pos hqe] at hc
        simp at hc
      · rw [if_neg hqe] at hc
        simp only [List.head?_cons, Option.some.injEq] at hc
        subst hc
        decide
    obtain ⟨htake, hdrop⟩ := takeWhile_boundary (fun c => c != '?') ('/' :: rest)
      (if q.isEmpty then [] else '?' :: q) hqmark hhd
    have hdropq : (if q.isEmpty then ([] : List Char) else '?' :: q).drop 1 = q := by
      cases q <;> rfl
    have hslash : ∀ x ∈ rest, isSlashC x = (x == '/') := by
      intro x hx
      rcases hsafe x hx with h | ⟨_, hb⟩
      · subst h
        decide
      · simp [isSlashC, hb]
    have hsegs : splitChar isSlashC rest = splitChar (fun x => x == '/') rest :=
      splitChar_congr _ _ rest hslash
    have hdots' : ∀ seg ∈ splitChar (fun x => x == '/') rest,
        isSingleDot seg = false ∧ isDoubleDot seg = false := by
      intro seg hseg
      have := (List.all_eq_true.mp hdots) seg hseg
      simp only [Bool.and_eq_true, Bool.not_eq_true'] at this
      exact this
    have hstack : dotStack [] (splitChar (fun x => x == '/') rest)
        = splitChar (fun x => x == '/') rest := by
      have := dotStack_no_dots (splitChar (fun x => x == '/') rest) hdots' []
      simpa using this
    have hmap : (splitChar (fun x => x == '/') rest).map (pctEncodeWith pathSafeC)
        = splitChar (fun x => x == '/') rest := by
      apply map_self_of
      intro seg hseg
      apply pctEncodeWith_id
      rw [List.all_eq_true]
      intro c hc
      have hcs := splitChar_chars (fun x => x == '/') rest seg hseg c hc
      rcases hsafe c hcs.1 with h | ⟨h, _⟩
      · exact absurd hcs.2 (by subst h; decide)
      · exact h
    have hjoin : List.intercalate ['/'] (splitChar (fun x => x == '/') rest) = rest :=
      splitChar_sep_rejoin (fun x => x == '/') '/' (by decide) rest (fun c _ => rfl)
    have hpath : urlPathname ('/' :: rest) = '/' :: rest := by
      simp only [urlPathname]
      rw [show isSlashC '/' = true from by decide]
      simp only [if_true, hsegs, hstack, hmap, hjoin]
    simp only [urlParse, stripFragment, splitQuery]
    rw [takeWhile_all_id _ _ hhash, htake, hdrop, hdropq, hpath]

end Botport

namespace Botport

/-- Characters with different code points are BEq-distinct. -/
theorem char_ne_of_toNat (c d : Char) (h : c.toNat ≠ d.toNat) : (c == d) = false := by
  rw [beq_eq_false_iff_ne]
  intro he
  exact h (he ▸ rfl)

/-- Code point of a digit character. -/
theorem digitChar_toNat (k : Nat) (hk : k < 10) : (digitChar k).toNat = 48 + k := by
  rw [digitChar]
  exact toNat_ofNat_valid (by omega)

/-- Digit characters are digits. -/
theorem isDigitC_digitChar (k : Nat) (hk : k < 10) : isDigitC (digitChar k) = true := by
  rw [isDigitC, digitChar_toNat k hk]
  simp
  omega

/-- The numeral of a natural number starts with a digit character. -/
theorem natDigits_shape (n : Nat) : ∃ k t, k < 10 ∧ natDigits n = digitChar k :: t := by
  induction n using Nat.strong_induction_on with
  | _ n ih =>
    by_cases h : n < 10
    · exact ⟨n, [], h, by rw [natDigits, dif_pos h]⟩
    · obtain ⟨k, t, hk, ht⟩ := ih (n / 10) (by omega)
      exact ⟨k, t ++ [digitChar (n % 10)], hk, by
        rw [natDigits, dif_neg h, ht]
        rfl⟩

/-- Every character of a numeral is a digit. -/
theorem natDigits_all (n : Nat) : (natDigits n).all isDigitC = true := by
  induction n using Nat.strong_induction_on with
  | _ n ih =>
    by_cases h : n < 10
    · rw [natDigits, dif_pos h]
      simp [isDigitC_digitChar n h]
    · rw [natDigits, dif_neg h]
      rw [List.all_append]
      rw [ih (n / 10) (by omega)]
      simp [isDigitC_digitChar (n % 10) (by omega)]

/-- Value of digits extended by one digit on the right. -/
theorem natOfDigits_snoc (l : List Char) (c : Char) :
    natOfDigits (l ++ [c]) = natOfDigits l * 10 + digitVal c := by
  rw [natOfDigits, natOfDigits, List.foldl_append]
  rfl

/-- Digit printing and digit reading are inverse. -/
theorem natOfDigits_natDigits (n : Nat) : natOfDigits (natDigits n) = n := by
  induction n using Nat.strong_induction_on with
  | _ n ih =>
    by_cases h : n < 10
    · rw [natDigits, dif_pos h]
      rw [show natOfDigits [digitChar n] = digitVal (digitChar n) from by
        simp [natOfDigits]]
      rw [digitVal, digitChar_toNat n h]
      omega
    · rw [natDigits, dif_neg h, natOfDigits_snoc, ih (n / 10) (by omega)]
      rw [digitVal, digitChar_toNat (n % 10) (by omega)]
      omega

/-- A positive numeral does not start with the zero digit. -/
theorem natDigits_first (n : Nat) (hn : 1 ≤ n) :
    ((natDigits n).headD '0' == '0') = false := by
  induction n using Nat.strong_induction_on with
  | _ n ih =>
    by_cases h : n < 10
    · rw [natDigits, dif_pos h]
      rw [List.headD_cons]
      apply char_ne_of_toNat
      rw [digitChar_toNat n h]
      have : ('0' : Char).toNat = 48 := by decide
      omega
    · rw [natDigits, dif_neg h]
      obtain ⟨k, t, hk, ht⟩ := natDigits_shape (n / 10)
      rw [ht]
      rw [List.cons_append, List.headD_cons]
      have := ih (n / 10) (by omega) (by omega)
      rw [ht, List.headD_cons] at this
      exact this

/-- The numeral is nonempty. -/
theorem natDigits_ne (n : Nat) : natDigits n ≠ [] := by
  obtain ⟨k, t, _, ht⟩ := natDigits_shape n
  rw [ht]
  simp

/-- The leading-zero rejection of the number grammar never fires on a
numeral. -/
theorem natDigits_lead (n : Nat) :
    (decide ((natDigits n).length > 1) && ((natDigits n).headD '0' == '0')) = false := by
  by_cases hn : n = 0
  · subst hn
    rw [show natDigits 0 = ['0'] from by rw [natDigits]; rfl]
    rfl
  · rw [natDigits_first n (by omega), Bool.and_false]

end Botport

namespace Botport

/-- Reading back a lowercase hex digit. -/
theorem hexVal_lower (x : Nat) (h : x < 16) : hexVal (hexDigitLower x) = some x := by
  unfold hexDigitLower hexVal
  by_cases h10 : x < 10
  · rw [if_pos h10]
    have ht : (Char.ofNat (48 + x)).toNat = 48 + x := toNat_ofNat_valid (by omega)
    rw [if_pos (by simp [ht]; omega)]
    rw [ht]
    congr 1
    omega
  · rw [if_neg h10]
    have ht : (Char.ofNat (87 + x)).toNat = 87 + x := toNat_ofNat_valid (by omega)
    rw [if_neg (by simp [ht]; omega), if_pos (by simp [ht]; omega)]
    rw [ht]
    congr 1
    omega

/-- Decoding a unicode escape of a control character. -/
theorem unescOne_u (x : Nat) (hx : x < 32) (T : List Char) :
    unescOne (bslash :: 'u' :: '0' :: '0'
        :: hexDigitLower (x / 16) :: hexDigitLower (x % 16) :: T)
      = some (Char.ofNat x, T) := by
  have e0 : hexVal '0' = some 0 := by decide
  have e1 := hexVal_lower (x / 16) (by omega)
  have e2 := hexVal_lower (x % 16) (by omega)
  have hh : hex4 '0' '0' (hexDigitLower (x / 16)) (hexDigitLower (x % 16)) = some x := by
    simp [hex4, e0, e1, e2]
    omega
  simp only [unescOne, hh]
  rw [if_pos (show (bslash == bslash) = true from rfl)]
  rw [if_pos (show ('u' == 'u') = true from rfl)]
  rw [if_neg (show ¬((decide (0xD800 ≤ x) && decide (x ≤ 0xDBFF)) = true) from by
    simp
    omega)]
  rw [if_neg (show ¬((decide (0xDC00 ≤ x) && decide (x ≤ 0xDFFF)) = true) from by
    simp
    omega)]

/-- Reading back one escaped character. -/
theorem unescOne_esc (c : Char) (T : List Char) :
    unescOne (escChar c ++ T) = some (c, T) := by
  by_cases h1 : c == dquote
  · obtain rfl : c = dquote := by simpa using h1
    rfl
  by_cases h2 : c == bslash
  · obtain rfl : c = bslash := by simpa using h2
    rfl
  by_cases h3 : c.toNat == 8
  · obtain rfl : c = Char.ofNat 8 := by
      have h := of_decide_eq_true h3
      rw [← h, Char.ofNat_toNat]
    rfl
  by_cases h4 : c.toNat == 9
  · obtain rfl : c = Char.ofNat 9 := by
      have h := of_decide_eq_true h4
      rw [← h, Char.ofNat_toNat]
    rfl
  by_cases h5 : c.toNat == 10
  · obtain rfl : c = Char.ofNat 10 := by
      have h := of_decide_eq_true h5
      rw [← h, Char.ofNat_toNat]
    rfl
  by_cases h6 : c.toNat == 12
  · obtain rfl : c = Char.ofNat 12 := by
      have h := of_decide_eq_true h6
      rw [← h, Char.ofNat_toNat]
    rfl
  by_cases h7 : c.toNat == 13
  · obtain rfl : c = Char.ofNat 13 := by
      have h := of_decide_eq_true h7
      rw [← h, Char.ofNat_toNat]
    rfl
  by_cases h8 : c.toNat < 32
  · rw [escChar, if_neg h1, if_neg h2, if_neg h3, if_neg h4, if_neg h5, if_neg h6,
      if_neg h7, if_pos h8]
    have := unescOne_u c.toNat h8 T
    rw [Char.ofNat_toNat] at this
    simpa using this
  · rw [escChar, if_neg h1, if_neg h2, if_neg h3, if_neg h4, if_neg h5, if_neg h6,
      if_neg h7, if_neg h8]
    rw [List.cons_append, List.nil_append]
    simp only [unescOne]
    rw [if_neg h2, if_neg h8]

/-- The escape of a character is nonempty and never starts with a raw
quote. -/
theorem escChar_shape (c : Char) : ∃ d t, escChar c = d :: t ∧ (d == dquote) = false := by
  rw [escChar]
  by_cases h1 : c == dquote
  · rw [if_pos h1]
    exact ⟨bslash, _, rfl, by decide⟩
  rw [if_neg h1]
  by_cases h2 : c == bslash
  · rw [if_pos h2]
    exact ⟨bslash, _, rfl, by decide⟩
  rw [if_neg h2]
  by_cases h3 : c.toNat == 8
  · rw [if_pos h3]
    exact ⟨bslash, _, rfl, by decide⟩
  rw [if_neg h3]
  by_cases h4 : c.toNat == 9
  · rw [if_pos h4]
    exact ⟨bslash, _, rfl, by decide⟩
  rw [if_neg h4]
  by_cases h5 : c.toNat == 10
  · rw [if_pos h5]
    exact ⟨bslash, _, rfl, by decide⟩
  rw [if_neg h5]
  by_cases h6 : c.toNat == 12
  · rw [if_pos h6]
    exact ⟨bslash, _, rfl, by decide⟩
  rw [if_neg h6]
  by_cases h7 : c.toNat == 13
  · rw [if_pos h7]
    exact ⟨bslash, _, rfl, by decide⟩
  rw [if_neg h7]
  by_cases h8 : c.toNat < 32
  · rw [if_pos h8]
    exact ⟨bslash, _, rfl, by decide⟩
  · rw [if_neg h8]
    refine ⟨c, [], rfl, ?_⟩
    simp at h1
    simp [h1]

/-- Reading back a serialized string body: the decoded content is the
original string and the input after the closing quote is returned. -/
theorem pStrRest_ser : ∀ (s rest : List Char),
    pStrRest ((s.map escChar).flatten ++ dquote :: rest) = some (s, rest)
  | [], rest => by
    simp only [List.map_nil, List.flatten_nil, List.nil_append]
    rw [pStrRest, if_pos (show (dquote == dquote) = true from rfl)]
  | c :: cs, rest => by
    obtain ⟨d, t, hdt, hd⟩ := escChar_shape c
    have hu : unescOne (d :: (t ++ ((cs.map escChar).flatten ++ dquote :: rest)))
        = some (c, (cs.map escChar).flatten ++ dquote :: rest) := by
      have h := unescOne_esc c ((cs.map escChar).flatten ++ dquote :: rest)
      rw [hdt] at h
      simpa using h
    rw [List.map_cons, List.flatten_cons, hdt]
    rw [show ((d :: t) ++ (cs.map escChar).flatten ++ dquote :: rest)
        = d :: (t ++ ((cs.map escChar).flatten ++ dquote :: rest)) from by simp]
    rw [pStrRest]
    rw [if_neg (show ¬((d == dquote) = true) from by simp [hd])]
    split
    next heq =>
      rw [hu] at heq
      exact Option.noConfusion heq
    next d2 r2 heq =>
      rw [hu] at heq
      simp only [Option.some.injEq, Prod.mk.injEq] at heq
      obtain ⟨rfl, rfl⟩ := heq
      rw [pStrRest_ser cs rest]

end Botport

namespace Botport

/-- Input at which a number literal ends: empty, or a character that can
extend neither the digits nor the fraction nor the exponent. -/
def numDelim (s : List Char) : Bool :=
  match s with
  | [] => true
  | c :: _ => !(isDigitC c || c == '.' || c == 'e' || c == 'E')

/-- A delimited input does not start with a digit. -/
theorem numDelim_head (X : List Char) (h : numDelim X = true) :
    ∀ c, X.head? = some c → isDigitC c = false := by
  intro c hc
  cases X with
  | nil => simp at hc
  | cons d t =>
    simp only [List.head?_cons, Option.some.injEq] at hc
    subst hc
    simp only [numDelim, Bool.not_eq_true', Bool.or_eq_false_iff] at h
    exact h.1.1.1

/-- The exponent parser is the identity on delimited input. -/
theorem pExp_delim (s : List Char) (h : numDelim s = true) : pExp s = (true, 0, s) := by
  cases s with
  | nil => rfl
  | cons c t =>
    simp only [numDelim, Bool.not_eq_true', Bool.or_eq_false_iff] at h
    simp only [pExp]
    rw [if_neg (show ¬((c == 'e' || c == 'E') = true) from by
      simp [h.1.2, h.2])]

/-- Splitting the digits of a numeral followed by delimited input. -/
theorem pNum_digits (n : Nat) (X : List Char)
    (hX : ∀ c, X.head? = some c → isDigitC c = false) :
    spanDigits (natDigits n ++ X) = (natDigits n, X) := by
  obtain ⟨h1, h2⟩ := takeWhile_boundary isDigitC (natDigits n) X (natDigits_all n) hX
  rw [spanDigits, h1, h2]

/-- Normalization fixes every integer pair. -/
theorem normNum_zero (m : Int) : normNum m 0 = (m, 0) := by
  rw [normNum]
  by_cases hm : m = 0
  · rw [if_pos hm, hm]
  · rw [if_neg hm]

/-- The exponent parser on a serialized negative exponent. -/
theorem pExp_exp (e : Nat) (rest : List Char) (hrest : numDelim rest = true) :
    pExp ('e' :: '-' :: (natDigits e ++ rest)) = (true, -(e : Int), rest) := by
  simp only [pExp]
  rw [if_pos (show (('e' == 'e') || ('e' == 'E')) = true from rfl)]
  obtain ⟨h1, h2⟩ := takeWhile_boundary isDigitC (natDigits e) rest (natDigits_all e)
    (numDelim_head rest hrest)
  simp only [h1, h2]
  rw [if_neg (show ¬((natDigits e).isEmpty = true) from by
    simp [List.isEmpty_iff, natDigits_ne e])]
  rw [natOfDigits_natDigits]
  simp

end Botport


namespace Botport

/-- Parsing an optionally signed numeral followed by a non-digit,
non-fraction tail whose exponent parse is known: the grammar walk of the
number parser, with the value assembled from the sign, the digits, and the
exponent. -/
theorem pNum_core (neg : Bool) (n : Nat) (X rest : List Char) (ev : Int)
    (hXh : ∀ c, X.head? = some c → isDigitC c = false ∧ (c == '.') = false)
    (hexp : pExp X = (true, ev, rest)) :
    pNum ((if neg then ['-'] else []) ++ (natDigits n ++ X))
      = (let mant : Int := if neg then -(n : Int) else (n : Int)
         let e0 : Int := 0 - ev
         let me : Int × Nat :=
           if e0 ≤ 0 then (mant * 10 ^ ((-e0).toNat), 0) else (mant, e0.toNat)
         some (.num (normNum me.1 me.2).1 (normNum me.1 me.2).2, rest)) := by
  obtain ⟨k, t, hk, ht⟩ := natDigits_shape n
  have hd := pNum_digits n X (fun c hc => (hXh c hc).1)
  have hlead := natDigits_lead n
  have hval := natOfDigits_natDigits n
  rw [ht] at hd hlead hval
  rw [List.cons_append] at hd
  have hfr : (match X with
      | '.' :: r => (!(spanDigits r).1.isEmpty, (spanDigits r).1, (spanDigits r).2)
      | r => ((true : Bool), ([] : List Char), r)) = (true, [], X) := by
    split
    next r =>
      exfalso
      have h2 := (hXh '.' rfl).2
      simp at h2
    next => rfl
  cases neg with
  | false =>
    rw [if_neg (by simp), List.nil_append, ht, List.cons_append]
    simp only [pNum]
    have hsign : (match digitChar k :: (t ++ X) with
        | '-' :: r => ((true : Bool), r)
        | r => ((false : Bool), r)) = (false, digitChar k :: (t ++ X)) := by
      split
      next r heq =>
        exfalso
        simp only [List.cons.injEq] at heq
        have hc := congrArg Char.toNat heq.1
        rw [digitChar_toNat k hk] at hc
        have h45 : ('-' : Char).toNat = 45 := by decide
        rw [h45] at hc
        omega
      next => rfl
    rw [hsign]
    simp only [isDigitC_digitChar k hk, Bool.not_true, Bool.false_eq_true, if_false, hd,
      hlead, hfr, hexp, List.append_nil, hval, List.length_nil, Nat.cast_zero]
  | true =>
    rw [if_pos rfl, ht]
    simp only [List.cons_append, List.nil_append]
    simp only [pNum]
    simp only [isDigitC_digitChar k hk, Bool.not_true, Bool.false_eq_true, if_false, hd,
      hlead, hfr, hexp, List.append_nil, hval, List.length_nil, Nat.cast_zero]

end Botport

namespace Botport

/-- Reading back a serialized normalized number before delimited input. -/
theorem pNum_ser (m : Int) (e : Nat) (hn : normNum m e = (m, e)) (rest : List Char)
    (hrest : numDelim rest = true) :
    pNum (serNum m e ++ rest) = some (.num m e, rest) := by
  by_cases he : e = 0
  · subst he
    have hXh : ∀ c, rest.head? = some c → isDigitC c = false ∧ (c == '.') = false := by
      intro c hc
      cases rest with
      | nil => simp at hc
      | cons d t =>
        simp only [List.head?_cons, Option.some.injEq] at hc
        subst hc
        simp only [numDelim, Bool.not_eq_true', Bool.or_eq_false_iff] at hrest
        exact ⟨hrest.1.1.1, hrest.1.1.2⟩
    by_cases hm : m < 0
    · have hcore := pNum_core true (-m).toNat rest rest 0 hXh (pExp_delim rest hrest)
      rw [if_pos rfl] at hcore
      rw [serNum, if_pos rfl, intDec, if_pos hm]
      rw [show ('-' :: natDigits (-m).toNat) ++ rest
          = ['-'] ++ (natDigits (-m).toNat ++ rest) from by simp]
      rw [hcore]
      simp only [sub_zero, neg_zero, Int.toNat_zero, pow_zero, mul_one, if_pos rfl,
        le_refl, if_true, normNum_zero]
      have hcast : (((-m).toNat : Nat) : Int) = -m := by omega
      rw [hcast]
      simp
    · have hcore := pNum_core false m.toNat rest rest 0 hXh (pExp_delim rest hrest)
      rw [if_neg (by simp)] at hcore
      rw [List.nil_append] at hcore
      rw [serNum, if_pos rfl, intDec, if_neg hm]
      rw [hcore]
      simp only [sub_zero, neg_zero, Int.toNat_zero, pow_zero, mul_one, le_refl, if_true,
        normNum_zero]
      have hcast : ((m.toNat : Nat) : Int) = m := by omega
      rw [hcast]
      simp
  · have hXh : ∀ c, ('e' :: '-' :: (natDigits e ++ rest)).head? = some c →
        isDigitC c = false ∧ (c == '.') = false := by
      intro c hc
      simp only [List.head?_cons, Option.some.injEq] at hc
      subst hc
      exact ⟨by decide, by decide⟩
    have hexp := pExp_exp e rest hrest
    have htn : ((0 : Int) - -(e : Int)).toNat = e := by omega
    by_cases hm : m < 0
    · have hcore := pNum_core true (-m).toNat ('e' :: '-' :: (natDigits e ++ rest)) rest
        (-(e : Int)) hXh hexp
      rw [if_pos rfl] at hcore
      rw [serNum, if_neg he, intDec, if_pos hm]
      rw [show (('-' :: natDigits (-m).toNat) ++ 'e' :: '-' :: natDigits e) ++ rest
          = ['-'] ++ (natDigits (-m).toNat ++ ('e' :: '-' :: (natDigits e ++ rest))) from by
        simp]
      rw [hcore]
      simp only []
      rw [if_neg (by omega), htn]
      have hcast : (((-m).toNat : Nat) : Int) = -m := by omega
      rw [hcast, show -(-m) = m from by omega]
      simp [hn]
    · have hcore := pNum_core false m.toNat ('e' :: '-' :: (natDigits e ++ rest)) rest
        (-(e : Int)) hXh hexp
      rw [if_neg (by simp)] at hcore
      rw [List.nil_append] at hcore
      rw [serNum, if_neg he, intDec, if_neg hm]
      rw [show (natDigits m.toNat ++ 'e' :: '-' :: natDigits e) ++ rest
          = natDigits m.toNat ++ ('e' :: '-' :: (natDigits e ++ rest)) from by simp]
      rw [hcore]
      simp only []
      rw [if_neg (by omega), htn]
      have hcast : ((m.toNat : Nat) : Int) = m := by omega
      rw [hcast]
      simp [hn]

end Botport

namespace Botport

/-- The key is absent from the association list. -/
def keyNotIn (k : List Char) (l : List (List Char × Json)) : Bool :=
  !(l.any (fun kv => kv.1 == k))

/-- Pairwise-distinct keys, as object literals produced by JSON.stringify
from real objects always have. -/
def keysOk : List (List Char × Json) → Bool
  | [] => true
  | kv :: rest => keyNotIn kv.1 rest && keysOk rest

/-- Values in the image of the parser: every number is in normal decimal
form (equal doubles are indistinguishable, so JSON.stringify prints one
form per value) and every object has distinct keys (JavaScript object
properties are unique). Exactly these values can round-trip through the
codec. -/
def jnormal : Json → Bool
  | .null => true
  | .bool _ => true
  | .num m e => decide (normNum m e = (m, e))
  | .str _ => true
  | .arr xs => xs.attach.all (fun x => jnormal x.1)
  | .obj kvs => keysOk kvs && kvs.attach.all (fun kv => jnormal kv.1.2)
decreasing_by
  · have := List.sizeOf_lt_of_mem x.2
    simp only [Json.arr.sizeOf_spec]
    omega
  · have h1 := List.sizeOf_lt_of_mem kv.2
    have h2 : sizeOf kv.1.2 < sizeOf kv.1 := by
      obtain ⟨a, b⟩ := kv.1
      simp
    simp only [Json.obj.sizeOf_spec]
    omega

/-- All over a mapped list, as a pointwise all. -/
theorem all_map_fn (l : List α) (g : α → β) (p : β → Bool) :
    (l.map g).all p = l.all (fun x => p (g x)) := by
  induction l with
  | nil => rfl
  | cons a as ih => rw [List.map_cons, List.all_cons, List.all_cons, ih]

/-- Attached all is plain all. -/
theorem attach_all_fn (l : List α) (f : α → Bool) :
    l.attach.all (fun x => f x.1) = l.all f := by
  have hiff : (l.attach.all (fun x => f x.1) = true) ↔ (l.all f = true) := by
    rw [List.all_eq_true, List.all_eq_true]
    exact ⟨fun h x hx => h ⟨x, hx⟩ (List.mem_attach _ _), fun h x _ => h x.1 x.2⟩
  cases h1 : l.attach.all (fun x => f x.1) <;> cases h2 : l.all f <;> simp_all

/-- Normality of null. -/
theorem jnormal_null : jnormal .null = true := by rw [jnormal]

/-- Normality of booleans. -/
theorem jnormal_bool (b : Bool) : jnormal (.bool b) = true := by rw [jnormal]

/-- Normality of numbers. -/
theorem jnormal_num (m : Int) (e : Nat) :
    jnormal (.num m e) = decide (normNum m e = (m, e)) := by rw [jnormal]

/-- Normality of strings. -/
theorem jnormal_str (s : List Char) : jnormal (.str s) = true := by rw [jnormal]

/-- Normality of arrays. -/
theorem jnormal_arr (xs : List Json) : jnormal (.arr xs) = xs.all jnormal := by
  rw [jnormal, attach_all_fn xs jnormal]

/-- Normality of objects. -/
theorem jnormal_obj (kvs : List (List Char × Json)) :
    jnormal (.obj kvs) = (keysOk kvs && kvs.all (fun kv => jnormal kv.2)) := by
  rw [jnormal, attach_all_fn kvs (fun kv => jnormal kv.2)]

/-- Serialized tail of an array after its first element: the remaining
elements each behind a comma, then the closing bracket. -/
def serArrTailStr (xs : List Json) : List Char :=
  (xs.map (fun x => ',' :: ser x)).flatten ++ [']']

/-- Serialized tail of an object after its first member: the remaining
members each behind a comma, then the closing brace. -/
def serObjTailStr (kvs : List (List Char × Json)) : List Char :=
  (kvs.map (fun kv => ',' :: (serStr kv.1 ++ ':' :: ser kv.2))).flatten ++ [rbrace]

/-- One-separator intercalation as head plus separated tail. -/
theorem intercalate_head (a : α) (y : List α) :
    ∀ (ys : List (List α)),
      List.intercalate [a] (y :: ys) = y ++ (ys.map (fun z => a :: z)).flatten
  | [] => by simp [intercalate_single]
  | z :: zs => by
    rw [intercalate_cons2, intercalate_head a z zs]
    simp

/-- Serialization of a nonempty array, decomposed. -/
theorem ser_arr_cons (x : Json) (xs : List Json) :
    ser (.arr (x :: xs)) = '[' :: (ser x ++ serArrTailStr xs) := by
  rw [ser_arr, List.map_cons, intercalate_head]
  simp only [serArrTailStr, List.map_map]
  simp only [List.cons_append, List.append_assoc]
  rfl

/-- The array tail string, decomposed. -/
theorem serArrTailStr_cons (x : Json) (xs : List Json) :
    serArrTailStr (x :: xs) = ',' :: (ser x ++ serArrTailStr xs) := by
  simp [serArrTailStr]

/-- Serialization of a nonempty object, decomposed. -/
theorem ser_obj_cons (kv : List Char × Json) (kvs : List (List Char × Json)) :
    ser (.obj (kv :: kvs))
      = lbrace :: (serStr kv.1 ++ ':' :: ser kv.2 ++ serObjTailStr kvs) := by
  rw [ser_obj, List.map_cons, intercalate_head]
  simp only [serObjTailStr, List.map_map]
  simp only [List.cons_append, List.append_assoc]
  rfl

/-- The object tail string, decomposed. -/
theorem serObjTailStr_cons (kv : List Char × Json) (kvs : List (List Char × Json)) :
    serObjTailStr (kv :: kvs)
      = ',' :: (serStr kv.1 ++ ':' :: ser kv.2 ++ serObjTailStr kvs) := by
  simp [serObjTailStr]

/-- Skipping whitespace before a non-whitespace head does nothing. -/
theorem skipWs_cons (c : Char) (t : List Char) (h : jsonWsC c = false) :
    skipWs (c :: t) = c :: t := by
  rw [skipWs, List.dropWhile_cons, if_neg (by simp [h])]

/-- Every serialization starts with a character that is neither
whitespace nor a closing bracket. -/
theorem ser_head (b : Json) :
    ∃ c t, ser b = c :: t ∧ jsonWsC c = false ∧ (c == ']') = false := by
  cases b with
  | null => exact ⟨'n', _, ser_null, by decide, by decide⟩
  | bool bb =>
    cases bb with
    | false => exact ⟨'f', _, ser_false, by decide, by decide⟩
    | true => exact ⟨'t', _, ser_true, by decide, by decide⟩
  | num m e =>
    rw [ser_num]
    by_cases hm : m < 0
    · by_cases he : e = 0
      · subst he
        rw [serNum, if_pos rfl, intDec, if_pos hm]
        exact ⟨'-', _, rfl, by decide, by decide⟩
      · exact ⟨'-', _,
          by rw [serNum, if_neg he, intDec, if_pos hm, List.cons_append], by decide,
          by decide⟩
    · obtain ⟨k, t, hk, ht⟩ := natDigits_shape m.toNat
      have hne : ∀ (d : Char), (57 < d.toNat ∨ d.toNat < 48) → (digitChar k == d) = false :=
        fun d hd => char_ne_of_toNat _ _ (by rw [digitChar_toNat k hk]; omega)
      have hws : jsonWsC (digitChar k) = false := by
        simp [jsonWsC, hne ' ' (by decide), hne '\t' (by decide), hne '\n' (by decide),
          hne '\r' (by decide)]
      have hbr := hne ']' (by decide)
      by_cases he : e = 0
      · subst he
        exact ⟨digitChar k, t, by rw [serNum, if_pos rfl, intDec, if_neg hm, ht], hws, hbr⟩
      · exact ⟨digitChar k, _,
          by rw [serNum, if_neg he, intDec, if_neg hm, ht, List.cons_append], hws, hbr⟩
  | str s => exact ⟨dquote, _, by rw [ser_str, serStr, List.cons_append], by decide,
      by decide⟩
  | arr xs => exact ⟨'[', _, by rw [ser_arr, List.cons_append], by decide, by decide⟩
  | obj kvs => exact ⟨lbrace, _, by rw [ser_obj, List.cons_append], by decide, by decide⟩

end Botport

namespace Botport

/-- A comma delimits a number. -/
theorem numDelim_comma (r : List Char) : numDelim (',' :: r) = true := rfl

/-- A closing bracket delimits a number. -/
theorem numDelim_rbracket (r : List Char) : numDelim (']' :: r) = true := rfl

/-- A closing brace delimits a number. -/
theorem numDelim_rbrace (r : List Char) : numDelim (rbrace :: r) = true := rfl

/-- Serialized strings have at least the two quotes. -/
theorem serStr_len (k : List Char) : 2 ≤ (serStr k).length := by
  rw [serStr]
  simp

/-- Serializations are nonempty. -/
theorem ser_len_pos (b : Json) : 1 ≤ (ser b).length := by
  obtain ⟨c, t, h, _, _⟩ := ser_head b
  rw [h]
  simp

/-- Array tails are nonempty. -/
theorem serArrTailStr_len_pos (xs : List Json) : 1 ≤ (serArrTailStr xs).length := by
  rw [serArrTailStr]
  simp

/-- Object tails are nonempty. -/
theorem serObjTailStr_len_pos (kvs : List (List Char × Json)) :
    1 ≤ (serObjTailStr kvs).length := by
  rw [serObjTailStr]
  simp

/-- An array tail delimits a number. -/
theorem serArrTailStr_delim (xs : List Json) (rest : List Char) :
    numDelim (serArrTailStr xs ++ rest) = true := by
  cases xs with
  | nil => rfl
  | cons x xs =>
    rw [serArrTailStr_cons]
    rfl

/-- An object tail delimits a number. -/
theorem serObjTailStr_delim (kvs : List (List Char × Json)) (rest : List Char) :
    numDelim (serObjTailStr kvs ++ rest) = true := by
  cases kvs with
  | nil => rfl
  | cons kv kvs =>
    rw [serObjTailStr_cons]
    rfl

/-- An array tail starts with no whitespace. -/
theorem serArrTailStr_skipWs (xs : List Json) (rest : List Char) :
    skipWs (serArrTailStr xs ++ rest) = serArrTailStr xs ++ rest := by
  cases xs with
  | nil => rfl
  | cons x xs =>
    rw [serArrTailStr_cons]
    rfl

/-- An object tail starts with no whitespace. -/
theorem serObjTailStr_skipWs (kvs : List (List Char × Json)) (rest : List Char) :
    skipWs (serObjTailStr kvs ++ rest) = serObjTailStr kvs ++ rest := by
  cases kvs with
  | nil => rfl
  | cons kv kvs =>
    rw [serObjTailStr_cons]
    rfl

/-- Upserting a fresh key appends. -/
theorem objUpsert_fresh (l : List (List Char × Json)) (k : List Char) (v : Json)
    (h : keyNotIn k l = true) : objUpsert l k v = l ++ [(k, v)] := by
  simp only [keyNotIn, Bool.not_eq_true'] at h
  rw [objUpsert, if_neg (by simp [h])]

end Botport

namespace Botport

/-- A serialized number starts with a minus or a digit, which rules out
every other dispatch branch of the value parser. -/
theorem serNum_head (m : Int) (e : Nat) :
    ∃ c t, serNum m e = c :: t ∧ (c == dquote) = false ∧ (c == '[') = false
      ∧ (c == lbrace) = false ∧ (c == 'n') = false ∧ (c == 't') = false
      ∧ (c == 'f') = false ∧ ((c == '-') || isDigitC c) = true ∧ jsonWsC c = false := by
  by_cases hm : m < 0
  · have hshape : ∃ t, serNum m e = '-' :: t := by
      by_cases he : e = 0
      · subst he
        exact ⟨_, by rw [serNum, if_pos rfl, intDec, if_pos hm]⟩
      · exact ⟨_, by rw [serNum, if_neg he, intDec, if_pos hm, List.cons_append]⟩
    obtain ⟨t, ht⟩ := hshape
    exact ⟨'-', t, ht, by decide, by decide, by decide, by decide, by decide, by decide,
      by decide, by decide⟩
  · obtain ⟨k, t, hk, ht⟩ := natDigits_shape m.toNat
    have hne : ∀ (d : Char), (57 < d.toNat ∨ d.toNat < 48) → (digitChar k == d) = false :=
      fun d hd => char_ne_of_toNat _ _ (by rw [digitChar_toNat k hk]; omega)
    have hws : jsonWsC (digitChar k) = false := by
      simp [jsonWsC, hne ' ' (by decide), hne '\t' (by decide), hne '\n' (by decide),
        hne '\r' (by decide)]
    have hdig : ((digitChar k == '-') || isDigitC (digitChar k)) = true := by
      rw [isDigitC_digitChar k hk, Bool.or_true]
    have hshape : ∃ t2, serNum m e = digitChar k :: t2 := by
      by_cases he : e = 0
      · subst he
        exact ⟨_, by rw [serNum, if_pos rfl, intDec, if_neg hm, ht]⟩
      · exact ⟨_, by rw [serNum, if_neg he, intDec, if_neg hm, ht, List.cons_append]⟩
    obtain ⟨t2, ht2⟩ := hshape
    exact ⟨digitChar k, t2, ht2, hne dquote (by decide), hne '[' (by decide),
      hne lbrace (by decide), hne 'n' (by decide), hne 't' (by decide),
      hne 'f' (by decide), hdig, hws⟩

end Botport

namespace Botport

/-- Unfolding distinct-keys on a cons. -/
theorem keysOk_cons (kv : List Char × Json) (rest : List (List Char × Json)) :
    keysOk (kv :: rest) = (keyNotIn kv.1 rest && keysOk rest) := by
  rw [keysOk]

/-- Adequacy of the fueled JSON parser on serialized normal values: with
fuel exceeding the serialized length, the value parser reads back exactly
the serialized value and leaves the rest, and likewise for the array-tail,
member, and object-tail parsers on serialized tails. -/
theorem pAdequacy (f : Nat) :
    (∀ b rest, jnormal b = true → numDelim rest = true → (ser b).length < f →
        pVal f (ser b ++ rest) = some (b, rest))
  ∧ (∀ xs acc rest, xs.all jnormal = true → numDelim rest = true →
        (serArrTailStr xs).length < f →
        pArrTail f (serArrTailStr xs ++ rest) acc = some (.arr (acc.reverse ++ xs), rest))
  ∧ (∀ k v rest, jnormal v = true → numDelim rest = true →
        (serStr k ++ ':' :: ser v).length < f →
        pMember f ((serStr k ++ ':' :: ser v) ++ rest) = some (k, v, rest))
  ∧ (∀ kvs acc rest, kvs.all (fun kv => jnormal kv.2) = true → keysOk kvs = true →
        (∀ kv ∈ kvs, keyNotIn kv.1 acc = true) → numDelim rest = true →
        (serObjTailStr kvs).length < f →
        pObjTail f (serObjTailStr kvs ++ rest) acc = some (.obj (acc ++ kvs), rest)) := by
  induction f with
  | zero =>
    refine ⟨?_, ?_, ?_, ?_⟩
    · intro b rest _ _ hlen
      exact absurd hlen (Nat.not_lt_zero _)
    · intro xs acc rest _ _ hlen
      exact absurd hlen (Nat.not_lt_zero _)
    · intro k v rest _ _ hlen
      exact absurd hlen (Nat.not_lt_zero _)
    · intro kvs acc rest _ _ _ _ hlen
      exact absurd hlen (Nat.not_lt_zero _)
  | succ f ih =>
    obtain ⟨ihP, ihQ, ihM, ihO⟩ := ih
    refine ⟨?_, ?_, ?_, ?_⟩
    · intro b rest hb hrest hlen
      cases b with
      | null =>
        have e1 : ('n' == dquote) = false := by decide
        have e2 : ('n' == '[') = false := by decide
        have e3 : ('n' == lbrace) = false := by decide
        have hsw : skipWs ('n' :: ('u' :: 'l' :: 'l' :: rest))
            = 'n' :: ('u' :: 'l' :: 'l' :: rest) := skipWs_cons _ _ (by decide)
        rw [show ser .null ++ rest = 'n' :: ('u' :: 'l' :: 'l' :: rest) from by
          rw [ser_null]; rfl]
        simp only [pVal]
        rw [hsw]
        simp only [e1, e2, e3, Bool.false_eq_true, if_false, beq_self_eq_true, if_true]
      | bool bb =>
        cases bb with
        | true =>
          have e1 : ('t' == dquote) = false := by decide
          have e2 : ('t' == '[') = false := by decide
          have e3 : ('t' == lbrace) = false := by decide
          have e4 : ('t' == 'n') = false := by decide
          have hsw : skipWs ('t' :: ('r' :: 'u' :: 'e' :: rest))
              = 't' :: ('r' :: 'u' :: 'e' :: rest) := skipWs_cons _ _ (by decide)
          rw [show ser (.bool true) ++ rest = 't' :: ('r' :: 'u' :: 'e' :: rest) from by
            rw [ser_true]; rfl]
          simp only [pVal]
          rw [hsw]
          simp only [e1, e2, e3, e4, Bool.false_eq_true, if_false, beq_self_eq_true, if_true]
        | false =>
          have e1 : ('f' == dquote) = false := by decide
          have e2 : ('f' == '[') = false := by decide
          have e3 : ('f' == lbrace) = false := by decide
          have e4 : ('f' == 'n') = false := by decide
          have e5 : ('f' == 't') = false := by decide
          have hsw : skipWs ('f' :: ('a' :: 'l' :: 's' :: 'e' :: rest))
              = 'f' :: ('a' :: 'l' :: 's' :: 'e' :: rest) := skipWs_cons _ _ (by decide)
          rw [show ser (.bool false) ++ rest = 'f' :: ('a' :: 'l' :: 's' :: 'e' :: rest) from by
            rw [ser_false]; rfl]
          simp only [pVal]
          rw [hsw]
          simp only [e1, e2, e3, e4, e5, Bool.false_eq_true, if_false, beq_self_eq_true,
            if_true]
      | num m e =>
        have hnorm : normNum m e = (m, e) := by
          rw [jnormal_num] at hb
          exact of_decide_eq_true hb
        obtain ⟨c, t, hct, hdq, hlb, hbrace, hn, ht', hf', hnum, hws⟩ := serNum_head m e
        rw [ser_num, hct, List.cons_append]
        simp only [pVal]
        rw [skipWs_cons c _ hws]
        simp only [hdq, hlb, hbrace, hn, ht', hf', hnum, Bool.false_eq_true, if_false,
          if_true]
        rw [← List.cons_append, ← hct, pNum_ser m e hnorm rest hrest]
      | str s =>
        have hsw : skipWs (dquote :: ((s.map escChar).flatten ++ dquote :: rest))
            = dquote :: ((s.map escChar).flatten ++ dquote :: rest) :=
          skipWs_cons _ _ (by decide)
        rw [show ser (.str s) ++ rest
            = dquote :: ((s.map escChar).flatten ++ dquote :: rest) from by
          rw [ser_str, serStr]; simp]
        simp only [pVal]
        rw [hsw]
        simp only [beq_self_eq_true, if_true, pStrRest_ser]
      | arr xs =>
        cases xs with
        | nil =>
          have e1 : ('[' == dquote) = false := by decide
          have hsw1 : skipWs ('[' :: (']' :: rest)) = '[' :: (']' :: rest) :=
            skipWs_cons _ _ (by decide)
          have hsw2 : skipWs (']' :: rest) = ']' :: rest := skipWs_cons _ _ (by decide)
          rw [show ser (.arr []) ++ rest = '[' :: (']' :: rest) from by
            rw [ser_arr]; simp [intercalate_nil']]
          simp only [pVal]
          rw [hsw1]
          simp only [e1, Bool.false_eq_true, if_false, beq_self_eq_true, if_true, hsw2]
        | cons x xs =>
          have e1 : ('[' == dquote) = false := by decide
          have hbx : jnormal x = true ∧ xs.all jnormal = true := by
            rw [jnormal_arr, List.all_cons, Bool.and_eq_true] at hb
            exact hb
          obtain ⟨cx, tx, hct, hwsx, hbrx⟩ := ser_head x
          have hlen2 : (ser (.arr (x :: xs))).length
              = 1 + ((ser x).length + (serArrTailStr xs).length) := by
            rw [ser_arr_cons]
            simp
            omega
          have hlx := ser_len_pos x
          have hlt := serArrTailStr_len_pos xs
          rw [ser_arr_cons]
          rw [show ('[' :: (ser x ++ serArrTailStr xs)) ++ rest
              = '[' :: (ser x ++ (serArrTailStr xs ++ rest)) from by simp]
          have hsw1 : skipWs ('[' :: (ser x ++ (serArrTailStr xs ++ rest)))
              = '[' :: (ser x ++ (serArrTailStr xs ++ rest)) := skipWs_cons _ _ (by decide)
          simp only [pVal]
          rw [hsw1]
          have hswx : skipWs (ser x ++ (serArrTailStr xs ++ rest))
              = ser x ++ (serArrTailStr xs ++ rest) := by
            rw [hct, List.cons_append, skipWs_cons _ _ hwsx, ← List.cons_append, ← hct]
          simp only [e1, Bool.false_eq_true, if_false, beq_self_eq_true, if_true, hswx]
          have harr : (match ser x ++ (serArrTailStr xs ++ rest) with
              | ']' :: r => some (Json.arr [], r)
              | r2 =>
                match pVal f r2 with
                | some (v, r3) => pArrTail f (skipWs r3) [v]
                | none => none)
              = (match pVal f (ser x ++ (serArrTailStr xs ++ rest)) with
                | some (v, r3) => pArrTail f (skipWs r3) [v]
                | none => none) := by
            rw [hct, List.cons_append]
            split
            next r heq =>
              exfalso
              simp only [List.cons.injEq] at heq
              have hx2 : (cx == ']') = true := by
                rw [heq.1]
                exact beq_self_eq_true ']'
              rw [hbrx] at hx2
              exact Bool.noConfusion hx2
            next v2 hne => rfl
          rw [harr]
          rw [ihP x (serArrTailStr xs ++ rest) hbx.1 (serArrTailStr_delim xs rest)
            (by omega)]
          simp only [serArrTailStr_skipWs]
          rw [ihQ xs [x] rest hbx.2 hrest (by omega)]
          simp
      | obj kvs =>
        cases kvs with
        | nil =>
          have e1 : (lbrace == dquote) = false := by decide
          have e2 : (lbrace == '[') = false := by decide
          have e3 : (dquote == rbrace) = false := by decide
          have e4 : (rbrace == rbrace) = true := by decide
          have hsw1 : skipWs (lbrace :: (rbrace :: rest)) = lbrace :: (rbrace :: rest) :=
            skipWs_cons _ _ (by decide)
          have hsw2 : skipWs (rbrace :: rest) = rbrace :: rest := skipWs_cons _ _ (by decide)
          rw [show ser (.obj []) ++ rest = lbrace :: (rbrace :: rest) from by
            rw [ser_obj]; simp [intercalate_nil']]
          simp only [pVal]
          rw [hsw1]
          simp only [e1, e2, Bool.false_eq_true, if_false, beq_self_eq_true, if_true, hsw2,
            e4]
        | cons kv kvs =>
          have e1 : (lbrace == dquote) = false := by decide
          have e2 : (lbrace == '[') = false := by decide
          have e3 : (dquote == rbrace) = false := by decide
          have hb2 := hb
          rw [jnormal_obj] at hb2
          simp only [keysOk, List.all_cons, Bool.and_eq_true] at hb2
          obtain ⟨⟨hfr0, hko⟩, hjv, hjvs⟩ := hb2
          have hlen2 : (ser (.obj (kv :: kvs))).length
              = 1 + (((serStr kv.1).length + (1 + (ser kv.2).length))
                  + (serObjTailStr kvs).length) := by
            rw [ser_obj_cons]
            simp
            omega
          have hlk := serStr_len kv.1
          have hlv := ser_len_pos kv.2
          have hlt := serObjTailStr_len_pos kvs
          have hlen3 : (serStr kv.1 ++ ':' :: ser kv.2).length
              = (serStr kv.1).length + (1 + (ser kv.2).length) := by
            rw [List.length_append, List.length_cons]
            omega
          rw [ser_obj_cons]
          rw [show (lbrace :: (serStr kv.1 ++ ':' :: ser kv.2 ++ serObjTailStr kvs)) ++ rest
              = lbrace :: ((serStr kv.1 ++ ':' :: ser kv.2) ++ (serObjTailStr kvs ++ rest))
              from by simp]
          have hsw1 : skipWs (lbrace ::
                ((serStr kv.1 ++ ':' :: ser kv.2) ++ (serObjTailStr kvs ++ rest)))
              = lbrace :: ((serStr kv.1 ++ ':' :: ser kv.2) ++ (serObjTailStr kvs ++ rest)) :=
            skipWs_cons _ _ (by decide)
          have hcons : (serStr kv.1 ++ ':' :: ser kv.2) ++ (serObjTailStr kvs ++ rest)
              = dquote :: (((kv.1.map escChar).flatten ++ [dquote])
                  ++ (':' :: ser kv.2 ++ (serObjTailStr kvs ++ rest))) := by
            rw [serStr]
            simp
          have hsw2 : skipWs ((serStr kv.1 ++ ':' :: ser kv.2) ++ (serObjTailStr kvs ++ rest))
              = (serStr kv.1 ++ ':' :: ser kv.2) ++ (serObjTailStr kvs ++ rest) := by
            rw [hcons]
            exact skipWs_cons _ _ (by decide)
          simp only [pVal]
          rw [hsw1]
          simp only [e1, e2, Bool.false_eq_true, if_false, beq_self_eq_true, if_true, hsw2]
          rw [hcons]
          simp only [e3, Bool.false_eq_true, if_false]
          rw [← hcons]
          rw [ihM kv.1 kv.2 (serObjTailStr kvs ++ rest) hjv (serObjTailStr_delim kvs rest)
            (by omega)]
          simp only [serObjTailStr_skipWs]
          have hfr1 : ∀ kv2 ∈ kvs, keyNotIn kv2.1 [(kv.1, kv.2)] = true := by
            intro kv2 hkv2
            have h1 : (kv2.1 == kv.1) = false := by
              simp only [keyNotIn, Bool.not_eq_true', List.any_eq_false] at hfr0
              have := hfr0 kv2 hkv2
              simpa using this
            simp only [keyNotIn, List.any_cons, List.any_nil, Bool.or_false,
              Bool.not_eq_true']
            rw [beq_eq_false_iff_ne] at h1 ⊢
            exact fun he => h1 he.symm
          rw [ihO kvs [(kv.1, kv.2)] rest hjvs hko hfr1 hrest (by omega)]
          simp
    · intro xs acc rest hall hrest hlen
      cases xs with
      | nil =>
        rw [show serArrTailStr [] ++ rest = ']' :: rest from rfl]
        simp only [pArrTail]
        simp
      | cons x xs =>
        have hx : jnormal x = true ∧ xs.all jnormal = true := by
          rw [List.all_cons, Bool.and_eq_true] at hall
          exact hall
        have hlen2 : (serArrTailStr (x :: xs)).length
            = 1 + ((ser x).length + (serArrTailStr xs).length) := by
          rw [serArrTailStr_cons]
          simp
          omega
        have hlx := ser_len_pos x
        have hlt := serArrTailStr_len_pos xs
        rw [serArrTailStr_cons]
        rw [show (',' :: (ser x ++ serArrTailStr xs)) ++ rest
            = ',' :: (ser x ++ (serArrTailStr xs ++ rest)) from by simp]
        simp only [pArrTail]
        rw [ihP x (serArrTailStr xs ++ rest) hx.1 (serArrTailStr_delim xs rest) (by omega)]
        simp only [serArrTailStr_skipWs]
        rw [ihQ xs (x :: acc) rest hx.2 hrest (by omega)]
        simp
    · intro k v rest hv hrest hlen
      have hlk := serStr_len k
      rw [show (serStr k ++ ':' :: ser v) ++ rest
          = dquote :: ((k.map escChar).flatten ++ dquote :: (':' :: (ser v ++ rest)))
          from by rw [serStr]; simp]
      have hsw : skipWs (':' :: (ser v ++ rest)) = ':' :: (ser v ++ rest) :=
        skipWs_cons _ _ (by decide)
      have hlen3 : (serStr k ++ ':' :: ser v).length
          = (serStr k).length + (1 + (ser v).length) := by
        rw [List.length_append, List.length_cons]
        omega
      simp only [pMember]
      simp only [beq_self_eq_true, if_true, pStrRest_ser, hsw]
      rw [ihP v rest hv hrest (by omega)]
    · intro kvs acc rest hvals hkeys hfresh hrest hlen
      cases kvs with
      | nil =>
        have e4 : (rbrace == rbrace) = true := by decide
        rw [show serObjTailStr [] ++ rest = rbrace :: rest from rfl]
        simp only [pObjTail]
        simp only [e4, if_true]
        simp
      | cons kv kvs =>
        have e5 : (',' == rbrace) = false := by decide
        have hkv : keyNotIn kv.1 kvs = true ∧ keysOk kvs = true := by
          rw [keysOk_cons, Bool.and_eq_true] at hkeys
          exact hkeys
        have hv2 : jnormal kv.2 = true ∧ kvs.all (fun p => jnormal p.2) = true := by
          rw [List.all_cons, Bool.and_eq_true] at hvals
          exact hvals
        have hlen2 : (serObjTailStr (kv :: kvs)).length
            = 1 + (((serStr kv.1).length + (1 + (ser kv.2).length))
                + (serObjTailStr kvs).length) := by
          rw [serObjTailStr_cons]
          simp
          omega
        have hlk := serStr_len kv.1
        have hlt := serObjTailStr_len_pos kvs
        have hlen3 : (serStr kv.1 ++ ':' :: ser kv.2).length
            = (serStr kv.1).length + (1 + (ser kv.2).length) := by
          rw [List.length_append, List.length_cons]
          omega
        rw [serObjTailStr_cons]
        rw [show (',' :: (serStr kv.1 ++ ':' :: ser kv.2 ++ serObjTailStr kvs)) ++ rest
            = ',' :: ((serStr kv.1 ++ ':' :: ser kv.2) ++ (serObjTailStr kvs ++ rest))
            from by simp]
        have hcons : (serStr kv.1 ++ ':' :: ser kv.2) ++ (serObjTailStr kvs ++ rest)
            = dquote :: (((kv.1.map escChar).flatten ++ [dquote])
                ++ (':' :: ser kv.2 ++ (serObjTailStr kvs ++ rest))) := by
          rw [serStr]
          simp
        have hswm : skipWs ((serStr kv.1 ++ ':' :: ser kv.2) ++ (serObjTailStr kvs ++ rest))
            = (serStr kv.1 ++ ':' :: ser kv.2) ++ (serObjTailStr kvs ++ rest) := by
          rw [hcons]
          exact skipWs_cons _ _ (by decide)
        simp only [pObjTail]
        simp only [e5, Bool.false_eq_true, if_false, beq_self_eq_true, if_true, hswm]
        rw [ihM kv.1 kv.2 (serObjTailStr kvs ++ rest) hv2.1 (serObjTailStr_delim kvs rest)
          (by omega)]
        simp only [serObjTailStr_skipWs]
        have hfr2 : ∀ kv2 ∈ kvs, keyNotIn kv2.1 (acc ++ [(kv.1, kv.2)]) = true := by
          intro kv2 hkv2
          have ha := hfresh kv2 (by simp [hkv2])
          have hb2 : (kv2.1 == kv.1) = false := by
            have h2 := hkv.1
            simp only [keyNotIn, Bool.not_eq_true', List.any_eq_false] at h2
            have := h2 kv2 hkv2
            simpa using this
          simp only [keyNotIn, Bool.not_eq_true', List.any_append, List.any_cons,
            List.any_nil, Bool.or_false, Bool.or_eq_false_iff]
          constructor
          · have := ha
            simp only [keyNotIn, Bool.not_eq_true'] at this
            exact this
          · rw [beq_eq_false_iff_ne] at hb2 ⊢
            exact fun he => hb2 he.symm
        rw [objUpsert_fresh acc kv.1 kv.2 (hfresh kv (by simp))]
        rw [ihO kvs (acc ++ [(kv.1, kv.2)]) rest hv2.2 hkv.2 hfr2 hrest (by omega)]
        simp

end Botport

namespace Botport

/-- Characters at code point 33 or above are not JavaScript whitespace. -/
theorem ws_false_of_ge (c : Char) (h : 33 ≤ c.toNat) : isWs c = false := by
  have e1 : (' ' : Char).toNat = 32 := by decide
  have e2 : ('\t' : Char).toNat = 9 := by decide
  have e3 : ('\n' : Char).toNat = 10 := by decide
  have e4 : ('\r' : Char).toNat = 13 := by decide
  have e5 : (Char.ofNat 11).toNat = 11 := by decide
  have e6 : (Char.ofNat 12).toNat = 12 := by decide
  rw [isWs, char_ne_of_toNat c ' ' (by omega), char_ne_of_toNat c '\t' (by omega),
    char_ne_of_toNat c '\n' (by omega), char_ne_of_toNat c '\r' (by omega),
    char_ne_of_toNat c (Char.ofNat 11) (by omega),
    char_ne_of_toNat c (Char.ofNat 12) (by omega)]
  rfl

/-- Unreserved characters are not whitespace. -/
theorem unres_not_ws (c : Char) (h : uriUnreservedC c = true) : isWs c = false := by
  by_cases h1 : c = ' '
  · subst h1
    exact absurd h (by decide)
  by_cases h2 : c = '\t'
  · subst h2
    exact absurd h (by decide)
  by_cases h3 : c = '\n'
  · subst h3
    exact absurd h (by decide)
  by_cases h4 : c = '\r'
  · subst h4
    exact absurd h (by decide)
  by_cases h5 : c = Char.ofNat 11
  · subst h5
    exact absurd h (by decide)
  by_cases h6 : c = Char.ofNat 12
  · subst h6
    exact absurd h (by decide)
  rw [isWs]
  simp [beq_eq_false_iff_ne.mpr h1, beq_eq_false_iff_ne.mpr h2, beq_eq_false_iff_ne.mpr h3,
    beq_eq_false_iff_ne.mpr h4, beq_eq_false_iff_ne.mpr h5, beq_eq_false_iff_ne.mpr h6]

/-- UTF-8 bytes are bytes. -/
theorem utf8_lt (c : Char) : ∀ byte ∈ utf8EncodeChar c, byte < 256 := by
  intro byte hb
  have hv : c.toNat < 1114112 := by
    show c.val.toNat < 1114112
    rcases c.valid with h | h <;> omega
  simp only [utf8EncodeChar] at hb
  by_cases h1 : c.toNat < 128
  · rw [if_pos h1] at hb
    simp at hb
    omega
  rw [if_neg h1] at hb
  by_cases h2 : c.toNat < 2048
  · rw [if_pos h2] at hb
    simp at hb
    rcases hb with h | h <;> omega
  rw [if_neg h2] at hb
  by_cases h3 : c.toNat < 65536
  · rw [if_pos h3] at hb
    simp at hb
    rcases hb with h | h | h <;> omega
  · rw [if_neg h3] at hb
    simp at hb
    rcases hb with h | h | h | h <;> omega

/-- The UTF-8 encoding of a character is nonempty. -/
theorem utf8_shape (c : Char) : ∃ b bs, utf8EncodeChar c = b :: bs := by
  simp only [utf8EncodeChar]
  by_cases h1 : c.toNat < 128
  · rw [if_pos h1]
    exact ⟨_, _, rfl⟩
  rw [if_neg h1]
  by_cases h2 : c.toNat < 2048
  · rw [if_pos h2]
    exact ⟨_, _, rfl⟩
  rw [if_neg h2]
  by_cases h3 : c.toNat < 65536
  · rw [if_pos h3]
    exact ⟨_, _, rfl⟩
  · rw [if_neg h3]
    exact ⟨_, _, rfl⟩

/-- Uppercase hex digits sit above the whitespace range. -/
theorem hexUpper_ge (x : Nat) (hx : x < 16) : 33 ≤ (hexDigitUpper x).toNat := by
  rw [hexDigitUpper]
  by_cases h : x < 10
  · rw [if_pos h, toNat_ofNat_valid (by omega)]
    omega
  · rw [if_neg h, toNat_ofNat_valid (by omega)]
    omega

/-- The percent-encoded route token contains no whitespace. -/
theorem encode_no_ws (s : List Char) :
    (encodeURIComponent s).all (fun c => !isWs c) = true := by
  rw [encodeURIComponent, List.all_eq_true]
  intro c hc
  rw [List.mem_flatten] at hc
  obtain ⟨l, hl, hcl⟩ := hc
  rw [List.mem_map] at hl
  obtain ⟨d, hd, rfl⟩ := hl
  by_cases hu : uriUnreservedC d
  · rw [if_pos hu] at hcl
    simp at hcl
    subst hcl
    simp [unres_not_ws c hu]
  · rw [if_neg hu] at hcl
    rw [List.mem_flatten] at hcl
    obtain ⟨l2, hl2, hcl2⟩ := hcl
    rw [List.mem_map] at hl2
    obtain ⟨byte, hbyte, rfl⟩ := hl2
    have hblt := utf8_lt d byte hbyte
    rw [pctOfByte] at hcl2
    simp only [List.mem_cons, List.not_mem_nil, or_false] at hcl2
    rcases hcl2 with rfl | rfl | rfl
    · decide
    · simp [ws_false_of_ge _ (hexUpper_ge (byte / 16) (by omega))]
    · simp [ws_false_of_ge _ (hexUpper_ge (byte % 16) (by omega))]

end Botport

namespace Botport

/-- Encoding a nonempty route yields a nonempty token. -/
theorem encode_ne (s : List Char) (h : s ≠ []) : encodeURIComponent s ≠ [] := by
  cases s with
  | nil => exact absurd rfl h
  | cons c cs =>
    rw [encodeURIComponent, List.map_cons, List.flatten_cons]
    intro he
    rw [List.append_eq_nil] at he
    have h1 := he.1
    by_cases hu : uriUnreservedC c
    · rw [if_pos hu] at h1
      exact List.noConfusion h1
    · rw [if_neg hu] at h1
      obtain ⟨b1, bs, hb⟩ := utf8_shape c
      rw [hb, List.map_cons, List.flatten_cons, pctOfByte, List.cons_append] at h1
      exact List.noConfusion h1

/-- Method keywords contain no whitespace. -/
theorem methodStr_no_ws (m : Method) : (methodStr m).all (fun c => !isWs c) = true := by
  cases m <;> decide

/-- Method keywords are uppercase fixed points recognized by the method
table. -/
theorem methodOf_methodStr (m : Method) :
    methodOf ((methodStr m).map Char.toUpper) = some m := by
  cases m <;> rfl

/-- An encoded command starts with a method letter, distinct from the
reserved command initials. -/
theorem cec_head (m : Method) (route : List Char) (b : Json) :
    ∃ c t, clientEncodeCommand m route b = c :: t
      ∧ (c == 'd') = false ∧ (c == 'r') = false := by
  cases m with
  | GET => exact ⟨'G', _, rfl, by decide, by decide⟩
  | POST => exact ⟨'P', _, rfl, by decide, by decide⟩
  | PUT => exact ⟨'P', _, rfl, by decide, by decide⟩
  | PATCH => exact ⟨'P', _, rfl, by decide, by decide⟩
  | DELETE => exact ⟨'D', _, rfl, by decide, by decide⟩

/-- JSON.parse reads back JSON.stringify on normal values. -/
theorem parseJson_ser (b : Json) (hb : jnormal b = true) : parseJson (ser b) = some b := by
  have h := (pAdequacy ((ser b).length + 1)).1 b [] hb rfl (by omega)
  rw [List.append_nil] at h
  simp only [parseJson, h]
  rw [if_pos (show skipWs [] = [] from rfl)]

end Botport

namespace Botport

/-- C1 as amended: for every method, canonical path (rooted at a single
slash, characters path-safe, no dot segments), canonical query (no
whitespace or hash), and normal truthy JSON body (normalized numbers,
distinct object keys) whose serialization survives the whitespace split
(nonempty, no leading, trailing or double separators, only plain spaces),
the server decodes the client-encoded request back to exactly the method,
the path, the query map, and the body. The counterexample shows the
universal statement of the claim fails without these conditions. -/
theorem wire_roundtrip (m : Method) (p q : List Char) (b : Json)
    (hp : PathCanon p = true) (hq : QueryCanon q = true)
    (hb : truthy b = true) (hn : jnormal b = true)
    (hj : bodyJoinable (ser b) = true) :
    serverDecode (clientEncodeCommand m (p ++ (if q.isEmpty then [] else '?' :: q)) b)
      = some (m, p, fromEntries (parseUrlencoded q), b) := by
  have hroutene : p ++ (if q.isEmpty then [] else '?' :: q) ≠ [] := by
    cases p with
    | nil => simp [PathCanon] at hp
    | cons c pr => simp
  have hjc : (ser b).isEmpty = false ∧ joinSafe isWs (ser b) = true
      ∧ (ser b).all (fun c => !isWs c || c == ' ') = true := by
    simp only [bodyJoinable, Bool.and_eq_true, Bool.not_eq_true'] at hj
    exact ⟨hj.1.1, hj.1.2, hj.2⟩
  have hBne : ser b ≠ [] := by
    intro h
    have h2 := hjc.1
    rw [h] at h2
    simp at h2
  generalize hR : p ++ (if q.isEmpty then [] else '?' :: q) = route at hroutene ⊢
  have hsplit : splitWs (clientEncodeCommand m route b)
      = methodStr m :: encodeURIComponent route :: splitChar isWs (ser b) := by
    rw [clientEncodeCommand, if_pos hb]
    exact splitWs_three _ _ _ (methodStr_no_ws m) (encode_no_ws _)
      (encode_ne _ hroutene) hjc.2.1 hBne
  obtain ⟨c0, t0, hct0, hcd, hcr⟩ := cec_head m route b
  have hres : ¬(clientEncodeCommand m route b = []
      ∨ clientEncodeCommand m route b = "docs".data
      ∨ clientEncodeCommand m route b = "routes".data) := by
    intro hcase
    rcases hcase with h | h | h
    · rw [hct0] at h
      exact List.noConfusion h
    · rw [hct0] at h
      injection h with h1 _
      rw [h1] at hcd
      exact absurd hcd (by decide)
    · rw [hct0] at h
      injection h with h1 _
      rw [h1] at hcr
      exact absurd hcr (by decide)
  have hdrop1 : (methodStr m :: encodeURIComponent route :: splitChar isWs (ser b)).drop 1
      = encodeURIComponent route :: splitChar isWs (ser b) := rfl
  have hdrop2 : (methodStr m :: encodeURIComponent route :: splitChar isWs (ser b)).drop 2
      = splitChar isWs (ser b) := rfl
  rw [serverDecode, if_neg hres]
  simp only [hsplit, hdrop1, hdrop2, List.headD_cons, joinSp_body (ser b) hjc.2.2,
    decode_encode, methodOf_methodStr]
  rw [if_pos hBne]
  simp only [parseJson_ser b hn, ← hR, urlParse_canon p q hp hq]

end Botport

namespace Botport

/-- Witness: a concrete POST with a query and an array body decodes back
to exactly its parts. -/
theorem wire_roundtrip_witness :
    serverDecode (clientEncodeCommand .POST ("/a?k=v".data) (.arr [Json.null]))
      = some (.POST, "/a".data, fromEntries (parseUrlencoded ("k=v".data)),
          .arr [Json.null]) := by
  have hser : ser (.arr [Json.null]) = '[' :: ('n' :: 'u' :: 'l' :: 'l' :: ']' :: []) := by
    rw [ser_arr, List.map_cons, List.map_nil, ser_null, intercalate_single]
    rfl
  have h := wire_roundtrip .POST ("/a".data) ("k=v".data) (.arr [Json.null])
    (by decide) (by decide) rfl
    (by simp [jnormal_arr, jnormal_null])
    (by rw [hser]; decide)
  exact h

end Botport
